import Mathlib

/-
Verification of the 3D scene-graph / picking / buffer-planner core of the
Painter repository (Sources/Core/motor_3D).  Each Python function that a
claim depends on is shallowly embedded as an executable Lean definition:
numpy byte counts and offsets become integers, float scalars become
rationals, Python dicts become association lists, and the mutable object
graph (child lists, selection flags) becomes an explicit store that the
operations thread through.  Fuel arguments stand in for recursion whose
termination Python does not guarantee; a result of none means the fuel ran
out, and all concrete evaluations are performed with ample fuel.
-/

namespace Painter

/-! ### Generic list helpers (indexing, take-sums) -/

theorem getD_set_self (l : List ℤ) (k : ℕ) (v : ℤ) (h : k < l.length) :
    (l.set k v).getD k 0 = v := by
  induction l generalizing k with
  | nil => simp at h
  | cons a t ih =>
    cases k with
    | zero => simp [List.set, List.getD]
    | succ m =>
      simp only [List.set, List.getD_cons_succ]
      exact ih m (by simpa using h)

theorem getD_set_ne (l : List ℤ) (k m : ℕ) (v : ℤ) (h : k ≠ m) :
    (l.set k v).getD m 0 = l.getD m 0 := by
  induction l generalizing k m with
  | nil => simp [List.set]
  | cons a t ih =>
    cases k with
    | zero =>
      cases m with
      | zero => exact absurd rfl h
      | succ m2 => simp [List.set]
    | succ k2 =>
      cases m with
      | zero => simp [List.set]
      | succ m2 =>
        simp only [List.set, List.getD_cons_succ]
        exact ih k2 m2 (fun hh => h (by simp [hh]))

theorem getD_mem (l : List ℤ) (k : ℕ) (h : k < l.length) : l.getD k 0 ∈ l := by
  induction l generalizing k with
  | nil => simp at h
  | cons a t ih =>
    cases k with
    | zero => simp [List.getD]
    | succ m =>
      simp only [List.getD_cons_succ]
      exact List.mem_cons_of_mem a (ih m (by simpa using h))

theorem sum_take_succ (l : List ℤ) (k : ℕ) (h : k < l.length) :
    (l.take (k + 1)).sum = (l.take k).sum + l.getD k 0 := by
  induction l generalizing k with
  | nil => simp at h
  | cons a t ih =>
    cases k with
    | zero => simp [List.getD]
    | succ m =>
      simp only [List.take, List.sum_cons, List.getD_cons_succ]
      rw [ih m (by simpa using h)]
      ring

theorem sum_take_mono (l : List ℤ) (hpos : ∀ x ∈ l, 0 ≤ x) {j k : ℕ} (hjk : j ≤ k) :
    (l.take j).sum ≤ (l.take k).sum := by
  induction k with
  | zero => simp [Nat.le_zero.mp hjk]
  | succ m ih =>
    rcases Nat.lt_or_ge m l.length with hm | hm
    · rcases Nat.lt_or_ge j (m + 1) with hj | hj
      · calc (l.take j).sum ≤ (l.take m).sum := ih (Nat.lt_succ_iff.mp hj)
          _ ≤ (l.take m).sum + l.getD m 0 := by
              have := hpos _ (getD_mem l m hm)
              linarith
          _ = (l.take (m + 1)).sum := (sum_take_succ l m hm).symm
      · have : j = m + 1 := le_antisymm hjk hj
        simp [this]
    · have h1 : l.take (m + 1) = l := List.take_of_length_le (by omega)
      rcases Nat.lt_or_ge j l.length with hj | hj
      · calc (l.take j).sum ≤ (l.take l.length).sum := ih (by omega) |>.trans_eq (by rw [List.take_of_length_le (le_refl _), List.take_of_length_le hm])
          _ = l.sum := by rw [List.take_length]
          _ = (l.take (m + 1)).sum := by rw [h1]
      · rw [List.take_of_length_le hj, h1]

theorem sum_take_nonneg (l : List ℤ) (hpos : ∀ x ∈ l, 0 ≤ x) (j : ℕ) :
    0 ≤ (l.take j).sum := by
  have := sum_take_mono l hpos (Nat.zero_le j)
  simpa using this

theorem sum_take_le_sum (l : List ℤ) (hpos : ∀ x ∈ l, 0 ≤ x) (j : ℕ) :
    (l.take j).sum ≤ l.sum := by
  have := sum_take_mono l hpos (Nat.le_max_left j l.length)
  rcases Nat.le_total j l.length with h | h
  · calc (l.take j).sum ≤ (l.take l.length).sum := sum_take_mono l hpos h
      _ = l.sum := by rw [List.take_length]
  · rw [List.take_of_length_le h]

theorem sum_take_sub_mono (A B : List ℤ) (hlen : A.length = B.length)
    (hpw : ∀ m, m < A.length → A.getD m 0 ≤ B.getD m 0)
    {j k : ℕ} (hjk : j ≤ k) :
    (A.take k).sum - (A.take j).sum ≤ (B.take k).sum - (B.take j).sum := by
  induction k with
  | zero =>
    have : j = 0 := Nat.le_zero.mp hjk
    simp [this]
  | succ m ih =>
    rcases Nat.lt_or_ge j (m + 1) with hj | hj
    · have hjm : j ≤ m := Nat.lt_succ_iff.mp hj
      rcases Nat.lt_or_ge m A.length with hm | hm
      · have hmB : m < B.length := hlen ▸ hm
        rw [sum_take_succ A m hm, sum_take_succ B m hmB]
        have := ih hjm
        have := hpw m hm
        linarith
      · have hmB : B.length ≤ m := hlen ▸ hm
        rw [List.take_of_length_le (by omega : A.length ≤ m + 1),
            List.take_of_length_le (by omega : B.length ≤ m + 1)]
        have hA : A.take m = A := List.take_of_length_le hm
        have hB : B.take m = B := List.take_of_length_le hmB
        have := ih hjm
        rw [hA, hB] at this
        exact this
    · have : j = m + 1 := le_antisymm hjk hj
      simp [this]

/-- Same-segment version: when the two lists agree on indices in [j, k),
the take-sum differences agree. -/
theorem sum_take_sub_eq (A B : List ℤ) (hlen : A.length = B.length)
    (hpw : ∀ m, m < A.length → j ≤ m → m < k → A.getD m 0 = B.getD m 0)
    (hjk : j ≤ k) :
    (A.take k).sum - (A.take j).sum = (B.take k).sum - (B.take j).sum := by
  induction k with
  | zero =>
    have : j = 0 := Nat.le_zero.mp hjk
    simp [this]
  | succ m ih =>
    rcases Nat.lt_or_ge j (m + 1) with hj | hj
    · have hjm : j ≤ m := Nat.lt_succ_iff.mp hj
      rcases Nat.lt_or_ge m A.length with hm | hm
      · have hmB : m < B.length := hlen ▸ hm
        rw [sum_take_succ A m hm, sum_take_succ B m hmB]
        have h1 := ih (fun m2 h2 h3 h4 => hpw m2 h2 h3 (by omega)) hjm
        have h2 := hpw m hm hjm (Nat.lt_succ_self m)
        linarith
      · have hmB : B.length ≤ m := hlen ▸ hm
        rw [List.take_of_length_le (by omega : A.length ≤ m + 1),
            List.take_of_length_le (by omega : B.length ≤ m + 1)]
        have hA : A.take m = A := List.take_of_length_le hm
        have hB : B.take m = B := List.take_of_length_le hmB
        have := ih (fun m2 h2 h3 h4 => hpw m2 h2 h3 (by omega)) hjm
        rw [hA, hB] at this
        exact this
    · have : j = m + 1 := le_antisymm hjk hj
      simp [this]

theorem pairwise_mem_or {α : Type} {R : α → α → Prop} {l : List α}
    (h : l.Pairwise R) {a b : α} (ha : a ∈ l) (hb : b ∈ l) :
    a = b ∨ R a b ∨ R b a := by
  induction l with
  | nil => simp at ha
  | cons x t ih =>
    rcases List.pairwise_cons.mp h with ⟨hx, ht⟩
    rcases List.mem_cons.mp ha with rfl | ha2
    · rcases List.mem_cons.mp hb with rfl | hb2
      · exact Or.inl rfl
      · exact Or.inr (Or.inl (hx b hb2))
    · rcases List.mem_cons.mp hb with rfl | hb2
      · exact Or.inr (Or.inr (hx a ha2))
      · exact ih ht ha2 hb2

/-! ### Camera (camera.py) and view widget zoom (GLViewWidget.py)

Positions are rational triples; the tangent of the half field of view,
which Python computes with math.tan, enters the pan computation as an
explicit parameter so the arithmetic stays exact. -/

structure Vec3 where
  x : ℚ
  y : ℚ
  z : ℚ
  deriving DecidableEq, Repr

structure Camera where
  pos : Vec3
  fov : ℚ
  deriving DecidableEq, Repr

/-- Parameters handed to Matrix4x4.create_projection by
Camera.get_projection_matrix: field of view, aspect ratio, near and far
clip planes. -/
structure ProjParams where
  fov : ℚ
  aspect : ℚ
  near : ℚ
  far : ℚ
  deriving DecidableEq, Repr

/-- Embedding of Camera.get_projection_matrix: distance = max(pos.z, 1);
near = 0.001 * distance; far = 100.0 * distance. -/
def Camera.get_projection_matrix (c : Camera) (width height : ℚ) (fovArg : Option ℚ) :
    ProjParams :=
  let distance := max c.pos.z 1
  { fov := fovArg.getD c.fov
    aspect := width / height
    near := 1 / 1000 * distance
    far := 100 * distance }

/-- The near/far rule written the way the spec sentence states it, as a
function of the Euclidean distance of the camera from the origin. -/
def specNearFar (dist : ℚ) : ℚ × ℚ :=
  (1 / 1000 * max dist 1, 100 * max dist 1)

/-- Embedding of Camera.pan: scale = pos.z * 2 * tan(fov/2) / width; the new
position is base + (-dx*scale, -dy*scale, dz*scale); then z is clamped up
to 0.1 when it fell below 0.1. -/
def Camera.pan (c : Camera) (dx dy dz width : ℚ) (base : Vec3) (tanHalfFov : ℚ) :
    Camera :=
  let scale := c.pos.z * 2 * tanHalfFov / width
  let p : Vec3 := ⟨base.x + (-dx * scale), base.y + (-dy * scale), base.z + dz * scale⟩
  let p2 := if p.z < 1 / 10 then { p with z := 1 / 10 } else p
  { c with pos := p2 }

/-- Embedding of the zoom branch of GLViewWidget.wheelEvent:
camera.pos.z = camera.pos.z * 0.999 ** delta, with no clamping. -/
def wheelEvent_zoom (z : ℚ) (delta : ℤ) : ℚ :=
  z * (999 / 1000 : ℚ) ^ delta

/-! ### Matrix4x4 vector multiplication (transform3d.py) -/

structure Vec4 where
  x : ℚ
  y : ℚ
  z : ℚ
  w : ℚ
  deriving DecidableEq, Repr

structure Mat4 where
  r0 : Vec4
  r1 : Vec4
  r2 : Vec4
  r3 : Vec4
  deriving DecidableEq, Repr

def dot4 (a b : Vec4) : ℚ :=
  a.x * b.x + a.y * b.y + a.z * b.z + a.w * b.w

def matApply (m : Mat4) (v : Vec4) : Vec4 :=
  ⟨dot4 m.r0 v, dot4 m.r1 v, dot4 m.r2 v, dot4 m.r3 v⟩

/-- Embedding of the 4-component branch of Matrix4x4.__mul__ on a numpy
vector: other /= max(other[3], 1e-8); other[3] = 1; return matmul(mat4,
other).  The first component of the result is the returned product, the
second is the state the caller array was left in. -/
def mul_vec4 (m : Mat4) (other : Vec4) : Vec4 × Vec4 :=
  let d := max other.w (1 / 100000000)
  let mutated : Vec4 := ⟨other.x / d, other.y / d, other.z / d, 1⟩
  (matApply m mutated, mutated)

/-- Embedding of the 3-component branch of Matrix4x4.__mul__: returns
rot @ other + trans without touching the input. -/
def mul_vec3 (m : Mat4) (other : Vec3) : Vec3 × Vec3 :=
  let r : Vec3 :=
    ⟨m.r0.x * other.x + m.r0.y * other.y + m.r0.z * other.z + m.r0.w,
     m.r1.x * other.x + m.r1.y * other.y + m.r1.z * other.z + m.r1.w,
     m.r2.x * other.x + m.r2.y * other.y + m.r2.z * other.z + m.r2.w⟩
  (r, other)

/-- Embedding of the N-by-4 branch of Matrix4x4.__mul__: each row has its
first three components divided by max(w, 1e-8), its w overwritten with 1,
and the whole (mutated) batch is then multiplied by the matrix transpose
row by row. -/
def mul_batch4 (m : Mat4) (rows : List Vec4) : List Vec4 × List Vec4 :=
  let mutated := rows.map (fun v =>
    let d := max v.w (1 / 100000000)
    (⟨v.x / d, v.y / d, v.z / d, 1⟩ : Vec4))
  (mutated.map (matApply m), mutated)

/-! ### Scene items (GLGraphicsItem.py)

An item carries its selectable flag, its selected flag and the pick color
registered for it at construction time.  Recursions that walk the parent
chain are embedded as functions of the item together with the list of its
ancestors, nearest first. -/

structure ItemRec where
  selectable : Bool
  selected : Bool
  ownColor : ℤ
  deriving DecidableEq, Repr

/-- Embedding of GLGraphicsItem.pickColor, walking the chain of parent
items (anc lists the parent, grandparent, ...).  A non-selectable item
reports 0.0; a selectable item whose parent is selectable reports the
color of the parent, recursively; otherwise the item reports its own
registered color. -/
def pickColorChain : ItemRec → List ItemRec → ℤ
  | it, anc =>
    if !it.selectable then 0
    else
      match anc with
      | [] => it.ownColor
      | p :: rest => if p.selectable then pickColorChain p rest else it.ownColor

/-- Topmost item of the contiguous selectable run that starts at the item
itself and climbs through selectable parents (the nearest selectable chain
top named by the spec). -/
def selectableRun : ItemRec → List ItemRec → ItemRec
  | it, [] => it
  | it, p :: rest => if p.selectable then selectableRun p rest else it

/-- Embedding of GLGraphicsItem.selected.  The code consults
self.parent(), the Qt object parent, so qtAnc is the chain of Qt object
parents: if the item is selectable it returns its own flag, otherwise it
recurses into the Qt parent when there is one and returns False when
there is none. -/
def selected_code : ItemRec → List ItemRec → Bool
  | it, qtAnc =>
    if it.selectable then it.selected
    else
      match qtAnc with
      | [] => false
      | p :: rest => selected_code p rest

/-- GLGraphicsItem.__init__ calls QObject.__init__ with no parent and
setParentItem only records the private parent attribute, so the Qt parent
chain of every constructed item is empty; this is the chain the code
passes to selected_code. -/
def qtAncestorsOfConstructedItem : List ItemRec := []

/-- Selection state of the nearest selectable ancestor in the ITEM
hierarchy (false when there is none), as the spec describes it. -/
def nearestSelectableSelected : List ItemRec → Bool
  | [] => false
  | p :: rest => if p.selectable then p.selected else nearestSelectableSelected rest

/-- The effective-selection query the spec sentence describes: own flag if
selectable, else the state of the nearest selectable ancestor in the item
hierarchy. -/
def selected_spec (it : ItemRec) (anc : List ItemRec) : Bool :=
  if it.selectable then it.selected else nearestSelectableSelected anc

/-! ### Pick color registry (PickColorManager)

The singleton dict { color(float32) : item } is embedded as an
association list from rational colors to item identifiers with dict
update semantics. -/

abbrev Registry := List (ℤ × ℕ)

/-- Dict lookup. -/
def regGet : Registry → ℤ → Option ℕ
  | [], _ => none
  | (c2, it) :: rest, c => if c2 = c then some it else regGet rest c

/-- Dict assignment self[color] = item (overwrites an existing key). -/
def regSet : Registry → ℤ → ℕ → Registry
  | [], c, it => [(c, it)]
  | (c2, it2) :: rest, c, it =>
    if c2 = c then (c, it) :: rest else (c2, it2) :: regSet rest c it

/-- Dict pop; none models the KeyError raised when the key is absent. -/
def regPop : Registry → ℤ → Option Registry
  | [], _ => none
  | (c2, it2) :: rest, c =>
    if c2 = c then some rest else (regPop rest c).map (fun r => (c2, it2) :: r)

/-- Embedding of PickColorManager.new_item.  Python draws a random color,
re-draws exactly once when the first draw is already a key, and then
assigns unconditionally; r1 and r2 are the two draws the random stream
would produce. -/
def new_item (reg : Registry) (it : ℕ) (r1 r2 : ℤ) : ℤ × Registry :=
  let color := if (regGet reg r1).isSome then r2 else r1
  (color, regSet reg color it)

/-- Embedding of PickColorManager.del_item: when the item occurs among the
dict values, pop the key item.pickColor() (note: the parent-inheriting
pickColor, not the own registered color); otherwise raise (none). -/
def del_item (reg : Registry) (itemId : ℕ) (itemPickColor : ℤ) : Option Registry :=
  if itemId ∈ reg.map Prod.snd then regPop reg itemPickColor else none

/-! ### recursiveChildItems (GLGraphicsItem.py)

The child lists of the scene are a store: node i owns the list of child
identifiers store[i].  The Python body aliases the own child list
(items = self.children), iterates over it while extending it with each
recursive result, and returns that same list; the embedding reproduces
this with an index-driven loop over the live list. -/

/-- One call of recursiveChildItems on node root, starting its loop at
index i; returns the updated store.  Fuel bounds the recursion. -/
def recAux : ℕ → List (List ℕ) → ℕ → ℕ → Option (List (List ℕ))
  | 0, _, _, _ => none
  | f + 1, store, root, i =>
    let cs := store.getD root []
    if h : i < cs.length then
      match recAux f store (cs.get ⟨i, h⟩) 0 with
      | none => none
      | some s2 =>
        let res := s2.getD (cs.get ⟨i, h⟩) []
        recAux f (s2.set root ((s2.getD root []) ++ res)) root (i + 1)
    else
      some store

/-- Embedding of GLGraphicsItem.recursiveChildItems: runs the loop and
returns the (aliased, mutated) child list of root together with the
mutated store. -/
def recursiveChildItems (fuel : ℕ) (store : List (List ℕ)) (root : ℕ) :
    Option (List ℕ × List (List ℕ)) :=
  match recAux fuel store root 0 with
  | none => none
  | some s2 => some (s2.getD root [], s2)

/-- The traversal the spec describes: children followed by their
descendants, computed without mutating the store. -/
def specDescendants : ℕ → List (List ℕ) → ℕ → Option (List ℕ)
  | 0, _, _ => none
  | f + 1, store, root =>
    let cs := store.getD root []
    (cs.mapM (specDescendants f store)).map (fun ds => cs ++ ds.flatten)

/-! ### Selection merge on mouse release (GLViewWidget.mouseReleaseEvent)

The scene is a world of items: per-item selectable flags, selected flags
and child lists (all indexed by item identifier).  setSelected mirrors
GLGraphicsItem.setSelected with children=True: it writes the own flag and
recurses into every selectable child. -/

structure SelWorld where
  selectable : List Bool
  selected : List Bool
  children : List (List ℕ)
  deriving DecidableEq, Repr

/-- Embedding of GLGraphicsItem.setSelected(s, children=True). -/
def setSelectedW : ℕ → SelWorld → ℕ → Bool → Option SelWorld
  | 0, _, _, _ => none
  | f + 1, w, it, s =>
    (w.children.getD it []).foldlM
      (fun acc c =>
        if acc.selectable.getD c false then setSelectedW f acc c s else pure acc)
      { w with selected := w.selected.set it s }

/-- Identifiers whose selected flag a setSelectedW call on it may write,
besides it itself: the selectable children, recursively. -/
def descList : ℕ → SelWorld → ℕ → List ℕ
  | 0, _, _ => []
  | f + 1, w, it =>
    (w.children.getD it []).foldl
      (fun acc c =>
        if w.selectable.getD c false then acc ++ c :: descList f w c else acc)
      []

/-- Embedding of the selection-merge portion of
GLViewWidget.mouseReleaseEvent, given the candidate items C returned by
get_selected_item, the current selected_items list S, and whether the
Control modifier is held. -/
def mouseRelease (f : ℕ) (w : SelWorld) (S C : List ℕ) (ctrl : Bool) :
    Option (SelWorld × List ℕ) :=
  if C = [] then
    if ctrl then some (w, S)
    else do
      let w2 ← S.foldlM (fun acc it => setSelectedW f acc it false) w
      pure (w2, [])
  else if !ctrl then
    C.foldlM
      (fun (acc : SelWorld × List ℕ) it =>
        if it ∈ acc.2 then do
          let w2 ← setSelectedW f acc.1 it false
          pure (w2, acc.2.erase it)
        else do
          let w2 ← setSelectedW f acc.1 it true
          pure (w2, acc.2 ++ [it]))
      (w, S)
  else
    C.foldlM
      (fun (acc : SelWorld × List ℕ) it =>
        if it ∉ acc.2 then do
          let w2 ← setSelectedW f acc.1 it true
          pure (w2, acc.2 ++ [it])
        else pure acc)
      (w, S)

/-! ### Theorems for the camera, transform and item claims -/

/-- C8 counterexample: with the camera at position (3, 4, 0) the Euclidean
distance from the origin is 5, so the near plane the claim prescribes is
0.001 * max(5, 1) = 5/1000, but the code computes distance = max(pos.z, 1)
= 1 and returns near = 1/1000. -/
theorem projection_distance_counterexample :
    (5 : ℚ) * 5 = 3 * 3 + 4 * 4 + 0 * 0 ∧ (0 : ℚ) ≤ 5 ∧
    (Camera.get_projection_matrix ⟨⟨3, 4, 0⟩, 45⟩ 800 600 none).near = 1 / 1000 ∧
    (specNearFar 5).1 = 5 / 1000 ∧
    ((1 : ℚ) / 1000 ≠ 5 / 1000) := by
  refine ⟨by norm_num, by norm_num, ?_, ?_, by norm_num⟩
  · show (1 : ℚ) / 1000 * max 0 1 = 1 / 1000
    norm_num
  · show ((1 : ℚ) / 1000 * max 5 1, (100 : ℚ) * max 5 1).1 = 5 / 1000
    norm_num

/-- C8 amended: the near and far clip planes are 0.001 * max(pos.z, 1) and
100 * max(pos.z, 1) where pos.z is the z component of the camera position
(the distance from the origin only when the camera sits on the z axis); in
particular on the z axis at distance 10 they are 0.01/1000 and at distance
1 they are 0.001/100. -/
theorem projection_nearFar_scales_with_z (c : Camera) (w h : ℚ) :
    (c.get_projection_matrix w h none).near = 1 / 1000 * max c.pos.z 1 ∧
    (c.get_projection_matrix w h none).far = 100 * max c.pos.z 1 ∧
    (Camera.get_projection_matrix ⟨⟨0, 0, 10⟩, 45⟩ w h none).near = 1 / 100 ∧
    (Camera.get_projection_matrix ⟨⟨0, 0, 10⟩, 45⟩ w h none).far = 1000 ∧
    (Camera.get_projection_matrix ⟨⟨0, 0, 1⟩, 45⟩ w h none).near = 1 / 1000 ∧
    (Camera.get_projection_matrix ⟨⟨0, 0, 1⟩, 45⟩ w h none).far = 100 := by
  refine ⟨rfl, rfl, ?_, ?_, ?_, ?_⟩ <;>
    simp [Camera.get_projection_matrix] <;> norm_num

/-- C9 counterexample: a single wheel tick (delta = 1) starting at the
claimed floor z = 0.1 yields 0.0999 < 0.1, so the zoom operation applies
no clamp to the camera distance. -/
theorem wheel_zoom_no_floor_counterexample :
    wheelEvent_zoom (1 / 10) 1 = 999 / 10000 ∧ (999 : ℚ) / 10000 < 1 / 10 := by
  constructor
  · show (1 : ℚ) / 10 * (999 / 1000 : ℚ) ^ (1 : ℤ) = 999 / 10000
    rw [zpow_one]
    norm_num
  · norm_num

/-- C9 amended: only pan clamps the z component of the camera position to
the floor 0.1; the wheel zoom multiplies z by the positive factor
0.999 ^ delta with no clamp, so a positive z stays positive (never zero or
negative) but can drop below 0.1. -/
theorem pan_clamps_zoom_stays_positive :
    (∀ (c : Camera) (dx dy dz width : ℚ) (base : Vec3) (tanHalfFov : ℚ),
        1 / 10 ≤ ((c.pan dx dy dz width base tanHalfFov).pos).z) ∧
    (∀ (z : ℚ) (delta : ℤ), 0 < z → 0 < wheelEvent_zoom z delta) := by
  constructor
  · intro c dx dy dz width base tanHalfFov
    simp only [Camera.pan]
    split_ifs with h
    · exact le_refl _
    · dsimp only
      linarith [not_lt.mp h]
  · intro z delta hz
    have hpow : (0 : ℚ) < (999 / 1000 : ℚ) ^ delta := zpow_pos (by norm_num) delta
    exact mul_pos hz hpow

/-- Witness for pan_clamps_zoom_stays_positive at z = 1, delta = 5. -/
theorem pan_clamps_zoom_stays_positive_witness :
    (0 : ℚ) < 1 ∧ 0 < wheelEvent_zoom 1 5 :=
  ⟨by norm_num, pan_clamps_zoom_stays_positive.2 1 5 (by norm_num)⟩

/-- C10: multiplying a Matrix4x4 by a 4-component point leaves the caller
array holding the point divided by max(w, 1e-8) with w overwritten by 1,
the returned product is the matrix applied to that mutated point, a
3-component input is left unchanged, the batch form mutates rows the same
way, and the input (2, 0, 0, 2) is concretely not preserved. -/
theorem matmul_vec4_mutates_input (m : Mat4) (v : Vec4) :
    (mul_vec4 m v).2 =
      ⟨v.x / max v.w (1 / 100000000), v.y / max v.w (1 / 100000000),
       v.z / max v.w (1 / 100000000), 1⟩ ∧
    (mul_vec4 m v).1 = matApply m (mul_vec4 m v).2 ∧
    ((mul_vec4 m v).2).w = 1 ∧
    (∀ v3 : Vec3, (mul_vec3 m v3).2 = v3) ∧
    (mul_batch4 m [v]).2 = [(mul_vec4 m v).2] ∧
    (mul_batch4 m [v]).1 = [(mul_vec4 m v).1] ∧
    (mul_vec4 m ⟨2, 0, 0, 2⟩).2 ≠ ⟨2, 0, 0, 2⟩ := by
  refine ⟨rfl, rfl, rfl, fun v3 => rfl, rfl, rfl, ?_⟩
  intro hcontra
  have hw : ((mul_vec4 m ⟨2, 0, 0, 2⟩).2).w = (1 : ℚ) := rfl
  rw [hcontra] at hw
  norm_num at hw

/-- C7: pickColor returns 0.0 for a non-selectable item, and for a
selectable item it returns the own registered color of the topmost item of
the contiguous selectable parent chain (the nearest selectable chain
top). -/
theorem pickColor_chain_top (it : ItemRec) (anc : List ItemRec) :
    pickColorChain it anc =
      if it.selectable then (selectableRun it anc).ownColor else 0 := by
  induction anc generalizing it with
  | nil =>
    cases h : it.selectable <;> simp [pickColorChain, selectableRun, h]
  | cons p rest ih =>
    cases h : it.selectable with
    | false => simp [pickColorChain, h]
    | true =>
      cases hp : p.selectable with
      | false => simp [pickColorChain, selectableRun, h, hp]
      | true => simp [pickColorChain, selectableRun, h, hp, ih p]

/-- C6 divergence: a non-selectable item whose ITEM parent is selectable
and selected is reported unselected by the code, because selected()
consults the Qt object parent (always absent for constructed items)
instead of the item parent; the spec formulation over the item hierarchy
reports it selected. -/
theorem selected_consults_qt_parent_divergence :
    selected_code ⟨false, false, 3⟩ qtAncestorsOfConstructedItem = false ∧
    selected_spec ⟨false, false, 3⟩ [⟨true, true, 2⟩] = true ∧
    nearestSelectableSelected [⟨true, true, 2⟩] = true := by
  refine ⟨rfl, rfl, rfl⟩

/-- C4 divergence: with selectable parent A (id 0, color 2) and
selectable child B (id 1, color 3) both registered, destroying B pops
B.pickColor(), which resolves to the color of A; afterwards the color of
the destroyed B still resolves in the registry while the color of the
live A does not.  Additionally new_item re-draws only once, so when both
draws collide with registered keys the assignment overwrites the entry of
the colliding item. -/
theorem del_item_pops_parent_color :
    pickColorChain ⟨true, false, 3⟩ [⟨true, true, 2⟩] = 2 ∧
    del_item [(2, 0), (3, 1)] 1
        (pickColorChain ⟨true, false, 3⟩ [⟨true, true, 2⟩]) =
      some [(3, 1)] ∧
    regGet [(3, 1)] 3 = some 1 ∧
    regGet [(3, 1)] 2 = none ∧
    new_item [(2, 0), (3, 1)] 4 2 3 =
      (3, [(2, 0), (3, 4)]) := by
  refine ⟨by decide, by decide, by decide, by decide, by decide⟩

/-- C5 divergence: on the parent chain 0 → 1 → 2 → 3 (each node the only
child of the previous one) recursiveChildItems on node 0 returns node 3
twice and permanently rewrites the child lists of nodes 0 and 1, because
the Python body aliases and extends the live child list; the traversal the
spec describes returns [1, 2, 3]. -/
theorem recursiveChildItems_duplicates_and_mutates :
    recursiveChildItems 20 [[1], [2], [3], []] 0 =
      some ([1, 2, 3, 3], [[1, 2, 3, 3], [2, 3], [3], []]) ∧
    specDescendants 20 [[1], [2], [3], []] 0 = some [1, 2, 3] ∧
    ([1, 2, 3, 3] : List ℕ) ≠ [1, 2, 3] := by
  refine ⟨by decide, by decide, by decide⟩

/-! ### Generic getD/set helpers over arbitrary element types -/

theorem getD_set_self_g {α : Type} (l : List α) (k : ℕ) (v d : α) (h : k < l.length) :
    (l.set k v).getD k d = v := by
  induction l generalizing k with
  | nil => simp at h
  | cons a t ih =>
    cases k with
    | zero => simp [List.set, List.getD]
    | succ m =>
      simp only [List.set, List.getD_cons_succ]
      exact ih m (by simpa using h)

theorem getD_set_ne_g {α : Type} (l : List α) (k m : ℕ) (v d : α) (h : k ≠ m) :
    (l.set k v).getD m d = l.getD m d := by
  induction l generalizing k m with
  | nil => simp [List.set]
  | cons a t ih =>
    cases k with
    | zero =>
      cases m with
      | zero => exact absurd rfl h
      | succ m2 => simp [List.set]
    | succ k2 =>
      cases m with
      | zero => simp [List.set]
      | succ m2 =>
        simp only [List.set, List.getD_cons_succ]
        exact ih k2 m2 (fun hh => h (by simp [hh]))

theorem set_of_length_le_g {α : Type} (l : List α) (k : ℕ) (v : α) (h : l.length ≤ k) :
    l.set k v = l := by
  induction l generalizing k with
  | nil => simp
  | cons a t ih =>
    cases k with
    | zero => simp at h
    | succ m => simp [List.set, ih m (by simpa using h)]

theorem getD_of_length_le_g {α : Type} (l : List α) (k : ℕ) (d : α) (h : l.length ≤ k) :
    l.getD k d = d := by
  induction l generalizing k with
  | nil => simp [List.getD]
  | cons a t ih =>
    cases k with
    | zero => simp at h
    | succ m => simpa [List.getD_cons_succ] using ih m (by simpa using h)

theorem getD_set_or_g {α : Type} (l : List α) (k y : ℕ) (v d : α) :
    (l.set k v).getD y d = l.getD y d ∨ (l.set k v).getD y d = v := by
  by_cases h : k = y
  · subst h
    by_cases hl : k < l.length
    · exact Or.inr (getD_set_self_g l k v d hl)
    · rw [set_of_length_le_g l k v (le_of_not_lt hl)]
      exact Or.inl rfl
  · exact Or.inl (getD_set_ne_g l k y v d h)

/-! ### Properties of setSelectedW -/

/-- Fields other than selected, and the length of selected, are preserved. -/
def PresWS (a b : SelWorld) : Prop :=
  b.selectable = a.selectable ∧ b.children = a.children ∧
    b.selected.length = a.selected.length

theorem PresWS.rfl_self (a : SelWorld) : PresWS a a := ⟨rfl, rfl, rfl⟩

theorem PresWS.comp {a b c : SelWorld} (h1 : PresWS a b) (h2 : PresWS b c) :
    PresWS a c :=
  ⟨h2.1.trans h1.1, h2.2.1.trans h1.2.1, h2.2.2.trans h1.2.2⟩

theorem foldlM_sel_pres (f : ℕ) (s : Bool)
    (ih : ∀ w it w2, setSelectedW f w it s = some w2 → PresWS w w2) :
    ∀ (cs : List ℕ) (acc w2 : SelWorld),
      cs.foldlM
        (fun a c => if a.selectable.getD c false then setSelectedW f a c s else pure a)
        acc = some w2 →
      PresWS acc w2 := by
  intro cs
  induction cs with
  | nil =>
    intro acc w2 h
    simp only [List.foldlM_nil] at h
    cases h
    exact PresWS.rfl_self acc
  | cons c rest ihc =>
    intro acc w2 h
    rw [List.foldlM_cons] at h
    rcases Option.bind_eq_some.mp h with ⟨mid, hmid, hrest⟩
    have p1 : PresWS acc mid := by
      by_cases hc : acc.selectable.getD c false
      · rw [if_pos hc] at hmid
        exact ih _ _ _ hmid
      · rw [if_neg hc] at hmid
        cases hmid
        exact PresWS.rfl_self acc
    exact p1.comp (ihc mid w2 hrest)

theorem setSelectedW_pres (f : ℕ) :
    ∀ (w : SelWorld) (it : ℕ) (s : Bool) (w2 : SelWorld),
      setSelectedW f w it s = some w2 → PresWS w w2 := by
  induction f with
  | zero => intro w it s w2 h; simp [setSelectedW] at h
  | succ f ih =>
    intro w it s w2 h
    rw [setSelectedW] at h
    have base : PresWS w { w with selected := w.selected.set it s } :=
      ⟨rfl, rfl, by simp⟩
    exact base.comp (foldlM_sel_pres f s (fun a b c => ih a b s c) _ _ _ h)

theorem foldlM_sel_writes (f : ℕ) (s : Bool)
    (ih : ∀ w it w2, setSelectedW f w it s = some w2 →
      ∀ y, w2.selected.getD y false = w.selected.getD y false ∨
        w2.selected.getD y false = s) :
    ∀ (cs : List ℕ) (acc w2 : SelWorld),
      cs.foldlM
        (fun a c => if a.selectable.getD c false then setSelectedW f a c s else pure a)
        acc = some w2 →
      ∀ y, w2.selected.getD y false = acc.selected.getD y false ∨
        w2.selected.getD y false = s := by
  intro cs
  induction cs with
  | nil =>
    intro acc w2 h y
    simp only [List.foldlM_nil] at h
    cases h
    exact Or.inl rfl
  | cons c rest ihc =>
    intro acc w2 h y
    rw [List.foldlM_cons] at h
    rcases Option.bind_eq_some.mp h with ⟨mid, hmid, hrest⟩
    have p1 : mid.selected.getD y false = acc.selected.getD y false ∨
        mid.selected.getD y false = s := by
      by_cases hc : acc.selectable.getD c false
      · rw [if_pos hc] at hmid
        exact ih _ _ _ hmid y
      · rw [if_neg hc] at hmid
        cases hmid
        exact Or.inl rfl
    rcases ihc mid w2 hrest y with h2 | h2
    · rw [h2]
      exact p1
    · exact Or.inr h2

theorem setSelectedW_writes (f : ℕ) :
    ∀ (w : SelWorld) (it : ℕ) (s : Bool) (w2 : SelWorld),
      setSelectedW f w it s = some w2 →
      ∀ y, w2.selected.getD y false = w.selected.getD y false ∨
        w2.selected.getD y false = s := by
  induction f with
  | zero => intro w it s w2 h; simp [setSelectedW] at h
  | succ f ih =>
    intro w it s w2 h y
    rw [setSelectedW] at h
    have base := getD_set_or_g w.selected it y s false
    rcases foldlM_sel_writes f s (fun a b c => ih a b s c) _ _ _ h y with h2 | h2
    · rw [h2]
      exact base
    · exact Or.inr h2

/-- After a successful setSelectedW with value false, the own flag of the
target reads false. -/
theorem setSelectedW_flag_false (f : ℕ) (w : SelWorld) (it : ℕ) (w2 : SelWorld)
    (h : setSelectedW f w it false = some w2) :
    w2.selected.getD it false = false := by
  cases f with
  | zero => simp [setSelectedW] at h
  | succ f =>
    rw [setSelectedW] at h
    have base : ({ w with selected := w.selected.set it false } :
        SelWorld).selected.getD it false = false := by
      by_cases hl : it < w.selected.length
      · exact getD_set_self_g _ _ _ _ hl
      · show (w.selected.set it false).getD it false = false
        rw [set_of_length_le_g _ _ _ (le_of_not_lt hl)]
        exact getD_of_length_le_g _ _ _ (le_of_not_lt hl)
    rcases foldlM_sel_writes f false
        (fun a b c => setSelectedW_writes f a b false c) _ _ _ h it with h2 | h2
    · rw [h2]
      exact base
    · exact h2

/-- After a successful setSelectedW with value true on a valid identifier,
the own flag of the target reads true. -/
theorem setSelectedW_flag_true (f : ℕ) (w : SelWorld) (it : ℕ) (w2 : SelWorld)
    (h : setSelectedW f w it true = some w2) (hl : it < w.selected.length) :
    w2.selected.getD it false = true := by
  cases f with
  | zero => simp [setSelectedW] at h
  | succ f =>
    rw [setSelectedW] at h
    have base : ({ w with selected := w.selected.set it true } :
        SelWorld).selected.getD it false = true :=
      getD_set_self_g _ _ _ _ hl
    rcases foldlM_sel_writes f true
        (fun a b c => setSelectedW_writes f a b true c) _ _ _ h it with h2 | h2
    · rw [h2]
      exact base
    · exact h2

theorem descList_congr (f : ℕ) :
    ∀ (a b : SelWorld) (it : ℕ), a.selectable = b.selectable →
      a.children = b.children → descList f a it = descList f b it := by
  induction f with
  | zero => intro a b it h1 h2; simp [descList]
  | succ f ih =>
    intro a b it h1 h2
    have hfun : (fun (acc : List ℕ) c =>
        if a.selectable.getD c false then acc ++ c :: descList f a c else acc) =
        (fun (acc : List ℕ) c =>
          if b.selectable.getD c false then acc ++ c :: descList f b c else acc) := by
      funext acc c
      rw [h1, ih a b c h1 h2]
    simp only [descList]
    rw [h2, hfun]

theorem foldl_desc_mem (sel : ℕ → Bool) (d : ℕ → List ℕ) :
    ∀ (cs : List ℕ) (init : List ℕ) (y : ℕ),
      y ∈ cs.foldl (fun acc c => if sel c then acc ++ c :: d c else acc) init ↔
        y ∈ init ∨ ∃ c ∈ cs, sel c ∧ (y = c ∨ y ∈ d c) := by
  intro cs
  induction cs with
  | nil => intro init y; simp
  | cons c rest ihc =>
    intro init y
    simp only [List.foldl_cons]
    by_cases hc : sel c
    · rw [if_pos hc, ihc]
      constructor
      · rintro (hin | hex)
        · rcases List.mem_append.mp hin with h1 | h1
          · exact Or.inl h1
          · rcases List.mem_cons.mp h1 with h2 | h2
            · exact Or.inr ⟨c, List.mem_cons_self c rest, hc, Or.inl h2⟩
            · exact Or.inr ⟨c, List.mem_cons_self c rest, hc, Or.inr h2⟩
        · rcases hex with ⟨c2, hc2, hsel2, hy⟩
          exact Or.inr ⟨c2, List.mem_cons_of_mem c hc2, hsel2, hy⟩
      · rintro (hin | hex)
        · exact Or.inl (List.mem_append.mpr (Or.inl hin))
        · rcases hex with ⟨c2, hc2, hsel2, hy⟩
          rcases List.mem_cons.mp hc2 with rfl | h3
          · rcases hy with rfl | hy2
            · exact Or.inl (List.mem_append.mpr (Or.inr (List.mem_cons_self _ _)))
            · exact Or.inl (List.mem_append.mpr (Or.inr (List.mem_cons_of_mem _ hy2)))
          · exact Or.inr ⟨c2, h3, hsel2, hy⟩
    · rw [if_neg hc, ihc]
      constructor
      · rintro (hin | hex)
        · exact Or.inl hin
        · rcases hex with ⟨c2, hc2, hsel2, hy⟩
          exact Or.inr ⟨c2, List.mem_cons_of_mem c hc2, hsel2, hy⟩
      · rintro (hin | hex)
        · exact Or.inl hin
        · rcases hex with ⟨c2, hc2, hsel2, hy⟩
          rcases List.mem_cons.mp hc2 with rfl | h3
          · exact absurd hsel2 hc
          · exact Or.inr ⟨c2, h3, hsel2, hy⟩

theorem descList_mem_succ (f : ℕ) (w : SelWorld) (it y : ℕ) :
    y ∈ descList (f + 1) w it ↔
      ∃ c ∈ w.children.getD it [], w.selectable.getD c false = true ∧
        (y = c ∨ y ∈ descList f w c) := by
  have := foldl_desc_mem (fun c => w.selectable.getD c false)
      (fun c => descList f w c) (w.children.getD it []) [] y
  simpa [descList] using this

theorem foldlM_sel_local (f : ℕ) (s : Bool) (w0 : SelWorld) (y : ℕ)
    (ih : ∀ w it w2, setSelectedW f w it s = some w2 → y ≠ it →
      y ∉ descList f w it →
      w2.selected.getD y false = w.selected.getD y false) :
    ∀ (cs : List ℕ) (acc w2 : SelWorld),
      cs.foldlM
        (fun a c => if a.selectable.getD c false then setSelectedW f a c s else pure a)
        acc = some w2 →
      acc.selectable = w0.selectable → acc.children = w0.children →
      (∀ c ∈ cs, w0.selectable.getD c false = true →
        y ≠ c ∧ y ∉ descList f w0 c) →
      w2.selected.getD y false = acc.selected.getD y false := by
  intro cs
  induction cs with
  | nil =>
    intro acc w2 h _ _ _
    simp only [List.foldlM_nil] at h
    cases h
    rfl
  | cons c rest ihc =>
    intro acc w2 h hsel hch hy
    rw [List.foldlM_cons] at h
    rcases Option.bind_eq_some.mp h with ⟨mid, hmid, hrest⟩
    by_cases hc : acc.selectable.getD c false
    · rw [if_pos hc] at hmid
      have hc0 : w0.selectable.getD c false = true := by rw [← hsel]; exact hc
      have hyc := hy c (List.mem_cons_self c rest) hc0
      have hdesc : descList f acc c = descList f w0 c :=
        descList_congr f acc w0 c hsel hch
      have step : mid.selected.getD y false = acc.selected.getD y false :=
        ih acc c mid hmid hyc.1 (hdesc ▸ hyc.2)
      have pmid := setSelectedW_pres f acc c s mid hmid
      have := ihc mid w2 hrest (pmid.1.trans hsel) (pmid.2.1.trans hch)
        (fun c2 hc2 hs2 => hy c2 (List.mem_cons_of_mem c hc2) hs2)
      rw [this, step]
    · rw [if_neg hc] at hmid
      cases hmid
      exact ihc acc w2 hrest hsel hch
        (fun c2 hc2 hs2 => hy c2 (List.mem_cons_of_mem c hc2) hs2)

/-- setSelectedW touches only the target and the identifiers in its
descList. -/
theorem setSelectedW_local (f : ℕ) :
    ∀ (w : SelWorld) (it : ℕ) (s : Bool) (w2 : SelWorld) (y : ℕ),
      setSelectedW f w it s = some w2 → y ≠ it → y ∉ descList f w it →
      w2.selected.getD y false = w.selected.getD y false := by
  induction f with
  | zero => intro w it s w2 y h; simp [setSelectedW] at h
  | succ f ih =>
    intro w it s w2 y h hne hnd
    rw [setSelectedW] at h
    have base : ({ w with selected := w.selected.set it s } :
        SelWorld).selected.getD y false = w.selected.getD y false :=
      getD_set_ne_g _ _ _ _ _ (fun hh => hne hh.symm)
    have hy : ∀ c ∈ w.children.getD it [], w.selectable.getD c false = true →
        y ≠ c ∧ y ∉ descList f w c := by
      intro c hc hsc
      constructor
      · rintro rfl
        exact hnd ((descList_mem_succ f w it y).mpr ⟨y, hc, hsc, Or.inl rfl⟩)
      · intro hyd
        exact hnd ((descList_mem_succ f w it y).mpr ⟨c, hc, hsc, Or.inr hyd⟩)
    have := foldlM_sel_local f s w y (fun a b c2 h1 h2 h3 => ih a b s c2 y h1 h2 h3)
      _ _ _ h rfl rfl hy
    rw [this, base]

/-! ### The three folds of mouseReleaseEvent -/

theorem foldl_desel_writes (f : ℕ) :
    ∀ (S : List ℕ) (w w2 : SelWorld),
      S.foldlM (fun acc it => setSelectedW f acc it false) w = some w2 →
      ∀ y, w2.selected.getD y false = w.selected.getD y false ∨
        w2.selected.getD y false = false := by
  intro S
  induction S with
  | nil =>
    intro w w2 h y
    simp only [List.foldlM_nil] at h
    cases h
    exact Or.inl rfl
  | cons x rest ihS =>
    intro w w2 h y
    rw [List.foldlM_cons] at h
    rcases Option.bind_eq_some.mp h with ⟨mid, hmid, hrest⟩
    rcases ihS mid w2 hrest y with h2 | h2
    · rw [h2]
      exact setSelectedW_writes f w x false mid hmid y
    · exact Or.inr h2

theorem desel_fold_spec (f : ℕ) :
    ∀ (S : List ℕ) (w w2 : SelWorld),
      S.foldlM (fun acc it => setSelectedW f acc it false) w = some w2 →
      ∀ x ∈ S, w2.selected.getD x false = false := by
  intro S
  induction S with
  | nil => intro w w2 h x hx; simp at hx
  | cons x rest ihS =>
    intro w w2 h y hy
    rw [List.foldlM_cons] at h
    rcases Option.bind_eq_some.mp h with ⟨mid, hmid, hrest⟩
    rcases List.mem_cons.mp hy with rfl | hy2
    · rcases foldl_desel_writes f rest mid w2 hrest y with h2 | h2
      · rw [h2]
        exact setSelectedW_flag_false f w y mid hmid
      · exact h2
    · exact ihS mid w2 hrest y hy2

theorem add_fold_spec (f : ℕ) :
    ∀ (C : List ℕ) (w : SelWorld) (S : List ℕ) (w2 : SelWorld) (S2 : List ℕ),
      C.foldlM
        (fun (acc : SelWorld × List ℕ) it =>
          if it ∉ acc.2 then do
            let wn ← setSelectedW f acc.1 it true
            pure (wn, acc.2 ++ [it])
          else pure acc)
        (w, S) = some (w2, S2) →
      C.Nodup →
      (∀ c ∈ C, c < w.selected.length) →
      (∀ x, x ∈ S2 ↔ x ∈ S ∨ x ∈ C) ∧
      (∀ c ∈ C, c ∉ S → w2.selected.getD c false = true) ∧
      (∀ y, w.selected.getD y false = true → w2.selected.getD y false = true) ∧
      PresWS w w2 := by
  intro C
  induction C with
  | nil =>
    intro w S w2 S2 h _ _
    simp only [List.foldlM_nil] at h
    cases h
    exact ⟨fun x => by simp, fun c hc => absurd hc (List.not_mem_nil c),
      fun y hy => hy, PresWS.rfl_self w⟩
  | cons c0 rest ihC =>
    intro w S w2 S2 h hnd hlen
    rw [List.foldlM_cons] at h
    rcases Option.bind_eq_some.mp h with ⟨mid, hmid, hrest⟩
    rcases List.nodup_cons.mp hnd with ⟨hc0rest, hndrest⟩
    by_cases hc0S : c0 ∈ S
    · rw [if_neg (by simpa using hc0S)] at hmid
      cases hmid
      have ih := ihC w S w2 S2 hrest hndrest
        (fun c hc => hlen c (List.mem_cons_of_mem c0 hc))
      rcases ih with ⟨hmem, hflag, hmono, hpres⟩
      refine ⟨?_, ?_, hmono, hpres⟩
      · intro x
        rw [hmem x]
        simp only [List.mem_cons]
        by_cases hx : x = c0
        · simp [hx, hc0S]
        · tauto
      · intro c hc hcS
        rcases List.mem_cons.mp hc with rfl | h2
        · exact absurd hc0S hcS
        · exact hflag c h2 hcS
    · rw [if_pos (by simpa using hc0S)] at hmid
      rcases Option.bind_eq_some.mp hmid with ⟨wn, hwn, hpair⟩
      cases hpair
      have hpresn := setSelectedW_pres f w c0 true wn hwn
      have ih := ihC wn (S ++ [c0]) w2 S2 hrest hndrest
        (fun c hc => by
          rw [hpresn.2.2]
          exact hlen c (List.mem_cons_of_mem c0 hc))
      rcases ih with ⟨hmem, hflag, hmono, hpres⟩
      refine ⟨?_, ?_, ?_, hpresn.comp hpres⟩
      · intro x
        rw [hmem x]
        simp only [List.mem_append, List.mem_cons, List.mem_singleton,
          List.not_mem_nil, or_false]
        tauto
      · intro c hc hcS
        rcases List.mem_cons.mp hc with rfl | h2
        · have : wn.selected.getD c false = true :=
            setSelectedW_flag_true f w c wn hwn (hlen c hc)
          exact hmono c this
        · have hcS1 : c ∉ S ++ [c0] := by
            simp only [List.mem_append, List.mem_singleton]
            rintro (h3 | rfl)
            · exact hcS h3
            · exact hc0rest h2
          exact hflag c h2 hcS1
      · intro y hy
        have : wn.selected.getD y false = true := by
          rcases setSelectedW_writes f w c0 true wn hwn y with h2 | h2
          · rw [h2]
            exact hy
          · exact h2
        exact hmono y this

theorem tog_fold_spec (f : ℕ) :
    ∀ (C : List ℕ) (w : SelWorld) (S : List ℕ) (w2 : SelWorld) (S2 : List ℕ),
      C.foldlM
        (fun (acc : SelWorld × List ℕ) it =>
          if it ∈ acc.2 then do
            let wn ← setSelectedW f acc.1 it false
            pure (wn, acc.2.erase it)
          else do
            let wn ← setSelectedW f acc.1 it true
            pure (wn, acc.2 ++ [it]))
        (w, S) = some (w2, S2) →
      C.Nodup → S.Nodup →
      (∀ c ∈ C, ∀ c2 ∈ C, c ≠ c2 → c ∉ descList f w c2) →
      (∀ c ∈ C, c < w.selected.length) →
      S2.Nodup ∧
      (∀ x, x ∈ S2 ↔ ((x ∈ S ∧ x ∉ C) ∨ (x ∈ C ∧ x ∉ S))) ∧
      (∀ c ∈ C, c ∈ S → w2.selected.getD c false = false) ∧
      (∀ c ∈ C, c ∉ S → w2.selected.getD c false = true) ∧
      PresWS w w2 ∧
      (∀ y, y ∉ C → (∀ c2 ∈ C, y ∉ descList f w c2) →
        w2.selected.getD y false = w.selected.getD y false) := by
  intro C
  induction C with
  | nil =>
    intro w S w2 S2 h _ hSnd _ _
    simp only [List.foldlM_nil] at h
    cases h
    refine ⟨hSnd, fun x => by simp, ?_, ?_, PresWS.rfl_self w, fun y _ _ => rfl⟩
    · intro c hc
      exact absurd hc (List.not_mem_nil c)
    · intro c hc
      exact absurd hc (List.not_mem_nil c)
  | cons c0 rest ihC =>
    intro w S w2 S2 h hnd hSnd hsep hlen
    rw [List.foldlM_cons] at h
    rcases Option.bind_eq_some.mp h with ⟨mid, hmid, hrest⟩
    rcases List.nodup_cons.mp hnd with ⟨hc0rest, hndrest⟩
    have hsep0 : ∀ c2 ∈ rest, c0 ∉ descList f w c2 := by
      intro c2 hc2
      exact hsep c0 (List.mem_cons_self c0 rest) c2 (List.mem_cons_of_mem c0 hc2)
        (fun hh => hc0rest (hh ▸ hc2))
    by_cases hc0S : c0 ∈ S
    · rw [if_pos hc0S] at hmid
      rcases Option.bind_eq_some.mp hmid with ⟨wn, hwn, hpair⟩
      cases hpair
      have hpresn := setSelectedW_pres f w c0 false wn hwn
      have hdesc : ∀ c2, descList f wn c2 = descList f w c2 := fun c2 =>
        descList_congr f wn w c2 hpresn.1 hpresn.2.1
      have ih := ihC wn (S.erase c0) w2 S2 hrest hndrest (hSnd.erase c0)
        (fun c hc c2 hc2 hne => by
          rw [hdesc c2]
          exact hsep c (List.mem_cons_of_mem c0 hc) c2 (List.mem_cons_of_mem c0 hc2) hne)
        (fun c hc => by
          rw [hpresn.2.2]
          exact hlen c (List.mem_cons_of_mem c0 hc))
      rcases ih with ⟨hnd2, hmem, hflagT, hflagF, hpres, hloc⟩
      refine ⟨hnd2, ?_, ?_, ?_, hpresn.comp hpres, ?_⟩
      · intro x
        rw [hmem x, hSnd.mem_erase_iff]
        simp only [List.mem_cons]
        by_cases hx : x = c0
        · simp [hx, hc0S, hc0rest]
        · tauto
      · intro c hc hcS
        rcases List.mem_cons.mp hc with rfl | h2
        · have hbase : wn.selected.getD c false = false :=
            setSelectedW_flag_false f w c wn hwn
          have := hloc c hc0rest (fun c2 hc2 => by
            rw [hdesc c2]
            exact hsep0 c2 hc2)
          rw [this, hbase]
        · have : c ∈ S.erase c0 := by
            rw [hSnd.mem_erase_iff]
            exact ⟨fun hh => hc0rest (hh ▸ h2), hcS⟩
          exact hflagT c h2 this
      · intro c hc hcS
        rcases List.mem_cons.mp hc with rfl | h2
        · exact absurd hc0S hcS
        · have : c ∉ S.erase c0 := by
            rw [hSnd.mem_erase_iff]
            rintro ⟨_, h3⟩
            exact hcS h3
          exact hflagF c h2 this
      · intro y hyC hyD
        have hy0 : y ≠ c0 := fun hh => hyC (hh ▸ List.mem_cons_self c0 rest)
        have step : wn.selected.getD y false = w.selected.getD y false :=
          setSelectedW_local f w c0 false wn y hwn hy0
            (hyD c0 (List.mem_cons_self c0 rest))
        have := hloc y (fun hh => hyC (List.mem_cons_of_mem c0 hh))
          (fun c2 hc2 => by
            rw [hdesc c2]
            exact hyD c2 (List.mem_cons_of_mem c0 hc2))
        rw [this, step]
    · rw [if_neg hc0S] at hmid
      rcases Option.bind_eq_some.mp hmid with ⟨wn, hwn, hpair⟩
      cases hpair
      have hpresn := setSelectedW_pres f w c0 true wn hwn
      have hdesc : ∀ c2, descList f wn c2 = descList f w c2 := fun c2 =>
        descList_congr f wn w c2 hpresn.1 hpresn.2.1
      have hS1nd : (S ++ [c0]).Nodup := by
        rw [List.nodup_append]
        exact ⟨hSnd, List.nodup_singleton c0, by simpa using hc0S⟩
      have ih := ihC wn (S ++ [c0]) w2 S2 hrest hndrest hS1nd
        (fun c hc c2 hc2 hne => by
          rw [hdesc c2]
          exact hsep c (List.mem_cons_of_mem c0 hc) c2 (List.mem_cons_of_mem c0 hc2) hne)
        (fun c hc => by
          rw [hpresn.2.2]
          exact hlen c (List.mem_cons_of_mem c0 hc))
      rcases ih with ⟨hnd2, hmem, hflagT, hflagF, hpres, hloc⟩
      refine ⟨hnd2, ?_, ?_, ?_, hpresn.comp hpres, ?_⟩
      · intro x
        rw [hmem x]
        simp only [List.mem_append, List.mem_cons, List.mem_singleton,
          List.not_mem_nil, or_false]
        by_cases hx : x = c0
        · simp [hx, hc0S, hc0rest]
        · tauto
      · intro c hc hcS
        rcases List.mem_cons.mp hc with rfl | h2
        · exact absurd hcS hc0S
        · have : c ∈ S ++ [c0] := List.mem_append.mpr (Or.inl hcS)
          exact hflagT c h2 this
      · intro c hc hcS
        rcases List.mem_cons.mp hc with rfl | h2
        · have hbase : wn.selected.getD c false = true :=
            setSelectedW_flag_true f w c wn hwn (hlen c hc)
          have := hloc c hc0rest (fun c2 hc2 => by
            rw [hdesc c2]
            exact hsep0 c2 hc2)
          rw [this, hbase]
        · have : c ∉ S ++ [c0] := by
            simp only [List.mem_append, List.mem_singleton]
            rintro (h3 | rfl)
            · exact hcS h3
            · exact hc0rest h2
          exact hflagF c h2 this
      · intro y hyC hyD
        have hy0 : y ≠ c0 := fun hh => hyC (hh ▸ List.mem_cons_self c0 rest)
        have step : wn.selected.getD y false = w.selected.getD y false :=
          setSelectedW_local f w c0 true wn y hwn hy0
            (hyD c0 (List.mem_cons_self c0 rest))
        have := hloc y (fun hh => hyC (List.mem_cons_of_mem c0 hh))
          (fun c2 hc2 => by
            rw [hdesc c2]
            exact hyD c2 (List.mem_cons_of_mem c0 hc2))
        rw [this, step]

/-- C3: selection merge policy on mouse release.  With no candidates and
no modifier every previously selected item is deselected and the
selection list is emptied; with no candidates and the modifier held
nothing changes; with candidates and no modifier each candidate is
toggled (removed from the list and deselected when present, appended and
selected when absent), so the resulting list is the symmetric difference;
with candidates and the modifier held candidates are only ever added and
selected and no selected flag is ever cleared.  Candidate lists are
duplicate-free (pickItems deduplicates), the selection list is
duplicate-free (it is only ever extended with missing elements), and
distinct candidates do not propagate onto one another (a selectable child
of a selectable parent reports the parent in picking). -/
theorem mouseRelease_merge_policy (f : ℕ) (w : SelWorld) (S C : List ℕ)
    (w2 : SelWorld) (S2 : List ℕ) :
    (mouseRelease f w S [] false = some (w2, S2) →
      S2 = [] ∧ ∀ x ∈ S, w2.selected.getD x false = false) ∧
    (mouseRelease f w S [] true = some (w2, S2) → w2 = w ∧ S2 = S) ∧
    (C ≠ [] → C.Nodup → S.Nodup →
      (∀ c ∈ C, ∀ c2 ∈ C, c ≠ c2 → c ∉ descList f w c2) →
      (∀ c ∈ C, c < w.selected.length) →
      mouseRelease f w S C false = some (w2, S2) →
      (∀ x, x ∈ S2 ↔ ((x ∈ S ∧ x ∉ C) ∨ (x ∈ C ∧ x ∉ S))) ∧
      (∀ c ∈ C, c ∈ S → w2.selected.getD c false = false) ∧
      (∀ c ∈ C, c ∉ S → w2.selected.getD c false = true)) ∧
    (C ≠ [] → C.Nodup →
      (∀ c ∈ C, c < w.selected.length) →
      mouseRelease f w S C true = some (w2, S2) →
      (∀ x, x ∈ S2 ↔ x ∈ S ∨ x ∈ C) ∧
      (∀ c ∈ C, c ∉ S → w2.selected.getD c false = true) ∧
      (∀ y, w.selected.getD y false = true → w2.selected.getD y false = true)) := by
  refine ⟨?_, ?_, ?_, ?_⟩
  · intro h
    simp only [mouseRelease, if_true, Bool.false_eq_true, if_false] at h
    rcases Option.bind_eq_some.mp h with ⟨wq, hfold, hpair⟩
    injection hpair with hpair2
    injection hpair2 with he1 he2
    subst he1
    subst he2
    exact ⟨rfl, desel_fold_spec f S w wq hfold⟩
  · intro h
    simp only [mouseRelease, if_true] at h
    injection h with hpair
    injection hpair with he1 he2
    exact ⟨he1.symm, he2.symm⟩
  · intro hC hCnd hSnd hsep hlen h
    simp only [mouseRelease, hC, if_false, Bool.not_false, if_true] at h
    have := tog_fold_spec f C w S w2 S2 h hCnd hSnd hsep hlen
    exact ⟨this.2.1, this.2.2.1, this.2.2.2.1⟩
  · intro hC hCnd hlen h
    simp only [mouseRelease, hC, if_false, Bool.not_true, Bool.false_eq_true] at h
    have := add_fold_spec f C w S w2 S2 h hCnd hlen
    exact ⟨this.1, this.2.1, this.2.2.1⟩

/-- Witness for mouseRelease_merge_policy: two selectable items 0 and 1
with empty child lists, item 0 selected; a toggle release with candidates
[0, 1] deselects 0 and selects 1, leaving the selection list [1]. -/
theorem mouseRelease_merge_policy_witness :
    (∀ x, x ∈ ([1] : List ℕ) ↔
      ((x ∈ ([0] : List ℕ) ∧ x ∉ ([0, 1] : List ℕ)) ∨
        (x ∈ ([0, 1] : List ℕ) ∧ x ∉ ([0] : List ℕ)))) ∧
    (∀ c ∈ ([0, 1] : List ℕ), c ∈ ([0] : List ℕ) →
      (⟨[true, true], [false, true], [[], []]⟩ : SelWorld).selected.getD c false
        = false) ∧
    (∀ c ∈ ([0, 1] : List ℕ), c ∉ ([0] : List ℕ) →
      (⟨[true, true], [false, true], [[], []]⟩ : SelWorld).selected.getD c false
        = true) :=
  (mouseRelease_merge_policy 10 ⟨[true, true], [false, false], [[], []]⟩ [0] [0, 1]
      ⟨[true, true], [false, true], [[], []]⟩ [1]).2.2.1
    (by decide) (by decide) (by decide) (by decide) (by decide) (by decide)

/-! ### Buffer memory planner (BufferObject.py, MemoryBlock / VBO)

Byte lengths and offsets are integers.  block_offsets is
[0] + np.cumsum(block_lens)[:-1] and sum_lens the total;
block_used is a uint32 array, so stores are reduced mod 2^32. -/

/-- np.cumsum with an explicit running accumulator. -/
def cumsum : List ℤ → ℤ → List ℤ
  | [], _ => []
  | a :: rest, acc => (acc + a) :: cumsum rest (acc + a)

/-- Offsets [0] + cumsum(lens)[:-1] of MemoryBlock. -/
def offsetsOf (lens : List ℤ) : List ℤ :=
  0 :: (cumsum lens 0).dropLast

structure MB where
  block_lens : List ℤ
  block_used : List ℤ
  block_offsets : List ℤ
  sum_lens : ℤ
  deriving DecidableEq, Repr

/-- A MemoryBlock in a well-formed state: offsets are the prefix sums of
the lens and sum_lens their total, as established by __init__ and
maintained by every setBlock. -/
def mkMB (lens used : List ℤ) : MB :=
  ⟨lens, used, offsetsOf lens, lens.sum⟩

/-- State of the first loop of MemoryBlock.setBlock: the moving pointer,
the keep entries [read offset, size, block id] gathered so far, the
updated lens and used arrays, and the extend flag. -/
structure LoopOut where
  ptr : ℤ
  keep : List (ℤ × ℤ × ℤ)
  lens : List ℤ
  used : List ℤ
  ext : Bool
  deriving DecidableEq, Repr

/-- The per-id loop of MemoryBlock.setBlock: t is the gap before block id
relative to the pointer, recorded as a keep entry when positive; the
pointer advances past the block; used is rewritten; the block len grows
(and extend is set) when the new length exceeds it. -/
def sbLoop (offs : List ℤ) : List (ℕ × ℤ) → ℤ → List ℤ → List ℤ → Bool → LoopOut
  | [], ptr, lens, used, ext => ⟨ptr, [], lens, used, ext⟩
  | (id, len) :: rest, ptr, lens, used, ext =>
    let t := offs.getD id 0 - ptr
    let ptr2 := offs.getD id 0 + lens.getD id 0
    let used2 := used.set id (len % 2 ^ 32)
    let grow := decide (lens.getD id 0 < len)
    let lens2 := if grow then lens.set id len else lens
    let ext2 := grow || ext
    let r := sbLoop offs rest ptr2 lens2 used2 ext2
    { r with keep := (if 0 < t then [(ptr, t, (id : ℤ))] else []) ++ r.keep }

/-- Return value of MemoryBlock.setBlock: copy_blocks (write offset,
size), keep_blocks (read offset, size, write offset), the extend flag,
and the mutated MemoryBlock. -/
structure SBOut where
  copy_blocks : List (ℤ × ℤ)
  keep_blocks : List (ℤ × ℤ × ℤ)
  ext : Bool
  mb : MB
  deriving DecidableEq, Repr

/-- Embedding of MemoryBlock.setBlock: run the loop, append the trailing
keep entry for the bytes after the last touched block, recompute offsets
and total when extending, rewrite each keep entry third slot from block
id to write offset (new offset of the id block, or the new total for the
trailing entry, minus the size), and emit the copy entries from the
(possibly new) offsets. -/
def MB.setBlock (mb : MB) (ids : List ℕ) (lengths : List ℤ) : SBOut :=
  let r := sbLoop mb.block_offsets (ids.zip lengths) 0 mb.block_lens mb.block_used false
  let keep1 :=
    if r.ptr < mb.sum_lens then r.keep ++ [(r.ptr, mb.sum_lens - r.ptr, (-1 : ℤ))]
    else r.keep
  let offs2 := if r.ext then offsetsOf r.lens else mb.block_offsets
  let sum2 := if r.ext then r.lens.sum else mb.sum_lens
  let keep2 :=
    if r.ext then
      keep1.map (fun kb =>
        (kb.1, kb.2.1,
          (if kb.2.2 = -1 then sum2 else offs2.getD kb.2.2.toNat 0) - kb.2.1))
    else keep1
  let copy := (ids.zip lengths).map (fun p => (offs2.getD p.1 0, p.2))
  ⟨copy, keep2, r.ext, ⟨r.lens, r.used, offs2, sum2⟩⟩

/-- One glCopyBufferSubData of VBO.updateData: copy size bytes of the old
buffer starting at read offset r into the destination at write offset w. -/
def copyRange (src dst : ℤ → ℤ) (r s w : ℤ) : ℤ → ℤ :=
  fun x => if w ≤ x ∧ x < w + s then src (r + (x - w)) else dst x

/-- The keep-copy loop of VBO.updateData: apply every keep entry
(read offset, size, write offset) in order. -/
def applyKeeps (src : ℤ → ℤ) (keeps : List (ℤ × ℤ × ℤ)) (dst : ℤ → ℤ) : ℤ → ℤ :=
  keeps.foldl (fun acc kb => copyRange src acc kb.1 kb.2.1 kb.2.2) dst

/-! ### Offset arithmetic -/

theorem cumsum_length (l : List ℤ) : ∀ (acc : ℤ), (cumsum l acc).length = l.length := by
  induction l with
  | nil => intro acc; rfl
  | cons a rest ih => intro acc; simp [cumsum, ih]

theorem cumsum_getD (l : List ℤ) :
    ∀ (acc : ℤ) (j : ℕ), j < l.length →
      (cumsum l acc).getD j 0 = acc + (l.take (j + 1)).sum := by
  induction l with
  | nil => intro acc j h; simp at h
  | cons a rest ih =>
    intro acc j h
    cases j with
    | zero => simp [cumsum, List.getD]
    | succ m =>
      simp only [cumsum, List.getD_cons_succ]
      rw [ih (acc + a) m (by simpa using h)]
      simp only [List.take, List.sum_cons]
      ring

theorem dropLast_getD (l : List ℤ) :
    ∀ (j : ℕ), j + 1 < l.length → l.dropLast.getD j 0 = l.getD j 0 := by
  induction l with
  | nil => intro j h; simp at h
  | cons a rest ih =>
    intro j h
    cases rest with
    | nil => simp at h
    | cons b rest2 =>
      cases j with
      | zero => rfl
      | succ m =>
        have hd : (a :: b :: rest2).dropLast = a :: (b :: rest2).dropLast := rfl
        rw [hd, List.getD_cons_succ, List.getD_cons_succ]
        exact ih m (by simpa using h)

theorem offsetsOf_getD (lens : List ℤ) (j : ℕ) (h : j < lens.length) :
    (offsetsOf lens).getD j 0 = (lens.take j).sum := by
  cases j with
  | zero => rfl
  | succ m =>
    show ((cumsum lens 0).dropLast).getD m 0 = (lens.take (m + 1)).sum
    rw [dropLast_getD _ m (by rw [cumsum_length]; exact h)]
    rw [cumsum_getD lens 0 m (by omega)]
    ring

/-! ### setBlock frame facts -/

theorem sbLoop_used_frame (offs : List ℤ) :
    ∀ (P : List (ℕ × ℤ)) (ptr : ℤ) (lens used : List ℤ) (ext : Bool) (k : ℕ),
      k ∉ P.map Prod.fst →
      (sbLoop offs P ptr lens used ext).used.getD k 0 = used.getD k 0 := by
  intro P
  induction P with
  | nil => intro ptr lens used ext k _; rfl
  | cons p rest ih =>
    rcases p with ⟨id, len⟩
    intro ptr lens used ext k hk
    simp only [List.map_cons, List.mem_cons, not_or] at hk
    show (sbLoop offs rest _ _ (used.set id (len % 2 ^ 32)) _).used.getD k 0
      = used.getD k 0
    rw [ih _ _ _ _ k hk.2]
    exact getD_set_ne_g used id k _ 0 (fun hh => hk.1 hh.symm)

theorem sbLoop_used_length (offs : List ℤ) :
    ∀ (P : List (ℕ × ℤ)) (ptr : ℤ) (lens used : List ℤ) (ext : Bool),
      (sbLoop offs P ptr lens used ext).used.length = used.length := by
  intro P
  induction P with
  | nil => intro ptr lens used ext; rfl
  | cons p rest ih =>
    rcases p with ⟨id, len⟩
    intro ptr lens used ext
    show (sbLoop offs rest _ _ (used.set id (len % 2 ^ 32)) _).used.length
      = used.length
    rw [ih]
    exact List.length_set used id _

theorem sbLoop_used_touched (offs : List ℤ) :
    ∀ (P : List (ℕ × ℤ)) (ptr : ℤ) (lens used : List ℤ) (ext : Bool),
      (P.map Prod.fst).Nodup →
      (∀ p ∈ P, p.1 < used.length) →
      ∀ p ∈ P, (sbLoop offs P ptr lens used ext).used.getD p.1 0 = p.2 % 2 ^ 32 := by
  intro P
  induction P with
  | nil => intro ptr lens used ext _ _ p hp; simp at hp
  | cons q rest ih =>
    rcases q with ⟨id, len⟩
    intro ptr lens used ext hnd hval p hp
    simp only [List.map_cons, List.nodup_cons] at hnd
    rcases List.mem_cons.mp hp with rfl | hp2
    · show (sbLoop offs rest _ _ (used.set id (len % 2 ^ 32)) _).used.getD id 0
        = len % 2 ^ 32
      rw [sbLoop_used_frame offs rest _ _ _ _ id hnd.1]
      exact getD_set_self_g used id _ 0 (hval (id, len) (List.mem_cons_self _ _))
    · show (sbLoop offs rest _ _ (used.set id (len % 2 ^ 32)) _).used.getD p.1 0
        = p.2 % 2 ^ 32
      exact ih _ _ _ _ hnd.2
        (fun p2 hp3 => by
          rw [List.length_set]
          exact hval p2 (List.mem_cons_of_mem _ hp3))
        p hp2

theorem sbLoop_noGrow (offs : List ℤ) :
    ∀ (P : List (ℕ × ℤ)) (ptr : ℤ) (lens used : List ℤ) (ext : Bool),
      (∀ p ∈ P, p.2 ≤ lens.getD p.1 0) →
      (sbLoop offs P ptr lens used ext).lens = lens ∧
        (sbLoop offs P ptr lens used ext).ext = ext := by
  intro P
  induction P with
  | nil => intro ptr lens used ext _; exact ⟨rfl, rfl⟩
  | cons q rest ih =>
    rcases q with ⟨id, len⟩
    intro ptr lens used ext hle
    have hq : len ≤ lens.getD id 0 := hle (id, len) (List.mem_cons_self _ _)
    have hgrow : decide (lens.getD id 0 < len) = false :=
      decide_eq_false (not_lt.mpr hq)
    have hlens2 : (if decide (lens.getD id 0 < len) then lens.set id len else lens)
        = lens := by
      rw [hgrow]
      simp
    have hext2 : (decide (lens.getD id 0 < len) || ext) = ext := by
      rw [hgrow]
      simp
    have hstepL : (sbLoop offs ((id, len) :: rest) ptr lens used ext).lens
        = (sbLoop offs rest (offs.getD id 0 + lens.getD id 0)
            (if decide (lens.getD id 0 < len) then lens.set id len else lens)
            (used.set id (len % 2 ^ 32))
            (decide (lens.getD id 0 < len) || ext)).lens := rfl
    have hstepE : (sbLoop offs ((id, len) :: rest) ptr lens used ext).ext
        = (sbLoop offs rest (offs.getD id 0 + lens.getD id 0)
            (if decide (lens.getD id 0 < len) then lens.set id len else lens)
            (used.set id (len % 2 ^ 32))
            (decide (lens.getD id 0 < len) || ext)).ext := rfl
    rw [hstepL, hstepE, hlens2, hext2]
    exact ih _ _ _ _ (fun p hp => hle p (List.mem_cons_of_mem _ hp))

/-- C2: a setBlock call in which every requested length is at most the
corresponding allocated length reports extend = false and leaves the
lens, the offsets and the total unchanged; only the touched used entries
are rewritten (to the requested lengths, as uint32). -/
theorem setBlock_inplace (lens used : List ℤ) (ids : List ℕ) (lengths : List ℤ)
    (hlen : ids.length = lengths.length)
    (hval : ∀ id ∈ ids, id < lens.length)
    (hule : used.length = lens.length)
    (hnd : ids.Nodup)
    (hle : ∀ p ∈ ids.zip lengths, p.2 ≤ lens.getD p.1 0) :
    ((mkMB lens used).setBlock ids lengths).ext = false ∧
    ((mkMB lens used).setBlock ids lengths).mb.block_lens = lens ∧
    ((mkMB lens used).setBlock ids lengths).mb.block_offsets = offsetsOf lens ∧
    ((mkMB lens used).setBlock ids lengths).mb.sum_lens = lens.sum ∧
    (∀ k, k ∉ ids →
      ((mkMB lens used).setBlock ids lengths).mb.block_used.getD k 0
        = used.getD k 0) ∧
    (∀ p ∈ ids.zip lengths,
      ((mkMB lens used).setBlock ids lengths).mb.block_used.getD p.1 0
        = p.2 % 2 ^ 32) := by
  have hmap : (ids.zip lengths).map Prod.fst = ids :=
    List.map_fst_zip ids lengths (le_of_eq hlen)
  have hng := sbLoop_noGrow (offsetsOf lens) (ids.zip lengths) 0 lens used false hle
  have hext : (sbLoop (offsetsOf lens) (ids.zip lengths) 0 lens used false).ext
      = false := hng.2
  have hlens : (sbLoop (offsetsOf lens) (ids.zip lengths) 0 lens used false).lens
      = lens := hng.1
  refine ⟨?_, ?_, ?_, ?_, ?_, ?_⟩
  · show (sbLoop (offsetsOf lens) (ids.zip lengths) 0 lens used false).ext = false
    exact hext
  · show (sbLoop (offsetsOf lens) (ids.zip lengths) 0 lens used false).lens = lens
    exact hlens
  · show (if (sbLoop (offsetsOf lens) (ids.zip lengths) 0 lens used false).ext
        then offsetsOf (sbLoop (offsetsOf lens) (ids.zip lengths) 0 lens used
          false).lens
        else offsetsOf lens) = offsetsOf lens
    rw [hext]
    simp
  · show (if (sbLoop (offsetsOf lens) (ids.zip lengths) 0 lens used false).ext
        then ((sbLoop (offsetsOf lens) (ids.zip lengths) 0 lens used false).lens).sum
        else lens.sum) = lens.sum
    rw [hext]
    simp
  · intro k hk
    show (sbLoop (offsetsOf lens) (ids.zip lengths) 0 lens used false).used.getD k 0
      = used.getD k 0
    refine sbLoop_used_frame _ _ _ _ _ _ k ?_
    rw [hmap]
    exact hk
  · intro p hp
    show (sbLoop (offsetsOf lens) (ids.zip lengths) 0 lens used false).used.getD p.1 0
      = p.2 % 2 ^ 32
    refine sbLoop_used_touched _ _ _ _ _ _ ?_ ?_ p hp
    · rw [hmap]
      exact hnd
    · intro p2 hp2
      rw [hule]
      exact hval p2.1 ((List.of_mem_zip hp2).1)

/-- Witness for setBlock_inplace: two blocks of 4 bytes, block 1 rewritten
with 4 bytes. -/
theorem setBlock_inplace_witness :
    ((mkMB [4, 4] [4, 4]).setBlock [1] [4]).ext = false ∧
    ((mkMB [4, 4] [4, 4]).setBlock [1] [4]).mb.block_lens = [4, 4] ∧
    ((mkMB [4, 4] [4, 4]).setBlock [1] [4]).mb.block_offsets = offsetsOf [4, 4] ∧
    ((mkMB [4, 4] [4, 4]).setBlock [1] [4]).mb.sum_lens = ([4, 4] : List ℤ).sum ∧
    (∀ k, k ∉ ([1] : List ℕ) →
      ((mkMB [4, 4] [4, 4]).setBlock [1] [4]).mb.block_used.getD k 0
        = ([4, 4] : List ℤ).getD k 0) ∧
    (∀ p ∈ ([1] : List ℕ).zip ([4] : List ℤ),
      ((mkMB [4, 4] [4, 4]).setBlock [1] [4]).mb.block_used.getD p.1 0
        = p.2 % 2 ^ 32) :=
  setBlock_inplace [4, 4] [4, 4] [1] [4] (by decide) (by decide) (by decide)
    (by decide) (by decide)

/-! ### setBlock reallocation: facts about the loop state -/

theorem ite_decide_pos {A : Type} {p : Prop} [Decidable p] (h : p) (a b : A) :
    (if decide p then a else b) = a :=
  if_pos (decide_eq_true h)

theorem ite_decide_neg {A : Type} {p : Prop} [Decidable p] (h : ¬p) (a b : A) :
    (if decide p then a else b) = b :=
  if_neg (fun hc => h (of_decide_eq_true hc))


theorem sbLoop_lens_facts (offs : List ℤ) :
    ∀ (P : List (ℕ × ℤ)) (ptr : ℤ) (cur used : List ℤ) (ext : Bool),
      (∀ p ∈ P, p.1 < cur.length) →
      (sbLoop offs P ptr cur used ext).lens.length = cur.length ∧
      (∀ k, cur.getD k 0 ≤ (sbLoop offs P ptr cur used ext).lens.getD k 0) ∧
      (∀ k, k ∉ P.map Prod.fst →
        (sbLoop offs P ptr cur used ext).lens.getD k 0 = cur.getD k 0) := by
  intro P
  induction P with
  | nil => intro ptr cur used ext _; exact ⟨rfl, fun k => le_refl _, fun k _ => rfl⟩
  | cons q rest ih =>
    rcases q with ⟨id, len⟩
    intro ptr cur used ext hval
    have hid : id < cur.length := hval (id, len) (List.mem_cons_self _ _)
    have hstepL : (sbLoop offs ((id, len) :: rest) ptr cur used ext).lens
        = (sbLoop offs rest (offs.getD id 0 + cur.getD id 0)
            (if decide (cur.getD id 0 < len) then cur.set id len else cur)
            (used.set id (len % 2 ^ 32))
            (decide (cur.getD id 0 < len) || ext)).lens := rfl
    have hcur2len : (if decide (cur.getD id 0 < len) then cur.set id len
        else cur).length = cur.length := by
      by_cases hg : cur.getD id 0 < len
      · rw [ite_decide_pos hg]
        exact List.length_set cur id len
      · rw [ite_decide_neg hg]
    have hcur2ge : ∀ k, cur.getD k 0 ≤
        (if decide (cur.getD id 0 < len) then cur.set id len else cur).getD k 0 := by
      intro k
      by_cases hg : cur.getD id 0 < len
      · rw [ite_decide_pos hg]
        by_cases hk : id = k
        · subst hk
          rw [getD_set_self_g cur id len 0 hid]
          exact le_of_lt hg
        · rw [getD_set_ne_g cur id k len 0 hk]
      · rw [ite_decide_neg hg]
    have hcur2ne : ∀ k, k ≠ id →
        (if decide (cur.getD id 0 < len) then cur.set id len else cur).getD k 0
          = cur.getD k 0 := by
      intro k hk
      by_cases hg : cur.getD id 0 < len
      · rw [ite_decide_pos hg]
        exact getD_set_ne_g cur id k len 0 (fun hh => hk hh.symm)
      · rw [ite_decide_neg hg]
    have ihr := ih (offs.getD id 0 + cur.getD id 0)
      (if decide (cur.getD id 0 < len) then cur.set id len else cur)
      (used.set id (len % 2 ^ 32)) (decide (cur.getD id 0 < len) || ext)
      (fun p hp => by
        rw [hcur2len]
        exact hval p (List.mem_cons_of_mem _ hp))
    refine ⟨?_, ?_, ?_⟩
    · rw [hstepL, ihr.1, hcur2len]
    · intro k
      rw [hstepL]
      exact le_trans (hcur2ge k) (ihr.2.1 k)
    · intro k hk
      simp only [List.map_cons, List.mem_cons, not_or] at hk
      rw [hstepL, ihr.2.2 k hk.2, hcur2ne k hk.1]

theorem sbLoop_ext_facts (offs : List ℤ) (L : List ℤ) :
    ∀ (P : List (ℕ × ℤ)) (ptr : ℤ) (cur used : List ℤ) (ext : Bool),
      (∀ p ∈ P, cur.getD p.1 0 = L.getD p.1 0) →
      ((P.map Prod.fst).Pairwise (· < ·)) →
      (∀ p ∈ P, p.1 < cur.length) →
      (ext = true → (sbLoop offs P ptr cur used ext).ext = true) ∧
      ((∃ p ∈ P, L.getD p.1 0 < p.2) →
        (sbLoop offs P ptr cur used ext).ext = true) := by
  intro P
  induction P with
  | nil =>
    intro ptr cur used ext _ _ _
    exact ⟨fun h => h, fun h => by simp at h⟩
  | cons q rest ih =>
    rcases q with ⟨id, len⟩
    intro ptr cur used ext hagree hsort hval
    have hid : id < cur.length := hval (id, len) (List.mem_cons_self _ _)
    simp only [List.map_cons, List.pairwise_cons] at hsort
    have hstepE : (sbLoop offs ((id, len) :: rest) ptr cur used ext).ext
        = (sbLoop offs rest (offs.getD id 0 + cur.getD id 0)
            (if decide (cur.getD id 0 < len) then cur.set id len else cur)
            (used.set id (len % 2 ^ 32))
            (decide (cur.getD id 0 < len) || ext)).ext := rfl
    have hagree2 : ∀ p ∈ rest,
        (if decide (cur.getD id 0 < len) then cur.set id len else cur).getD p.1 0
          = L.getD p.1 0 := by
      intro p hp
      have hne : id ≠ p.1 := by
        have := hsort.1 p.1 (List.mem_map_of_mem Prod.fst hp)
        omega
      by_cases hg : cur.getD id 0 < len
      · rw [ite_decide_pos hg]
        rw [getD_set_ne_g cur id p.1 len 0 hne]
        exact hagree p (List.mem_cons_of_mem _ hp)
      · rw [ite_decide_neg hg]
        exact hagree p (List.mem_cons_of_mem _ hp)
    have hval2 : ∀ p ∈ rest, p.1 <
        (if decide (cur.getD id 0 < len) then cur.set id len else cur).length := by
      intro p hp
      have : (if decide (cur.getD id 0 < len) then cur.set id len
          else cur).length = cur.length := by
        by_cases hg : cur.getD id 0 < len
        · rw [ite_decide_pos hg]
          exact List.length_set cur id len
        · rw [ite_decide_neg hg]
      rw [this]
      exact hval p (List.mem_cons_of_mem _ hp)
    have ihr := ih (offs.getD id 0 + cur.getD id 0)
      (if decide (cur.getD id 0 < len) then cur.set id len else cur)
      (used.set id (len % 2 ^ 32)) (decide (cur.getD id 0 < len) || ext)
      hagree2 hsort.2 hval2
    constructor
    · intro hext
      rw [hstepE]
      refine ihr.1 ?_
      rw [hext]
      simp
    · rintro ⟨p, hp, hplt⟩
      rw [hstepE]
      rcases List.mem_cons.mp hp with rfl | hp2
      · refine ihr.1 ?_
        have hg : cur.getD id 0 < len := by
          rw [hagree (id, len) (List.mem_cons_self _ _)]
          exact hplt
        rw [decide_eq_true hg]
        simp
      · exact ihr.2 ⟨p, hp2, hplt⟩

theorem sbLoop_ptr_facts (L : List ℤ) (hpos : ∀ x ∈ L, 0 ≤ x) :
    ∀ (P : List (ℕ × ℤ)) (ptr : ℤ) (cur used : List ℤ) (ext : Bool),
      ((P.map Prod.fst).Pairwise (· < ·)) →
      (∀ p ∈ P, p.1 < L.length) →
      (∀ p ∈ P, cur.getD p.1 0 = L.getD p.1 0) →
      (∀ p ∈ P, ptr ≤ (L.take p.1).sum) →
      ptr ≤ (sbLoop (offsetsOf L) P ptr cur used ext).ptr ∧
      (∀ p ∈ P, (L.take (p.1 + 1)).sum
        ≤ (sbLoop (offsetsOf L) P ptr cur used ext).ptr) := by
  intro P
  induction P with
  | nil =>
    intro ptr cur used ext _ _ _ _
    exact ⟨le_refl _, fun p hp => by simp at hp⟩
  | cons q rest ih =>
    rcases q with ⟨id, len⟩
    intro ptr cur used ext hsort hval hagree hptr
    have hid : id < L.length := hval (id, len) (List.mem_cons_self _ _)
    simp only [List.map_cons, List.pairwise_cons] at hsort
    have hstepP : (sbLoop (offsetsOf L) ((id, len) :: rest) ptr cur used ext).ptr
        = (sbLoop (offsetsOf L) rest ((offsetsOf L).getD id 0 + cur.getD id 0)
            (if decide (cur.getD id 0 < len) then cur.set id len else cur)
            (used.set id (len % 2 ^ 32))
            (decide (cur.getD id 0 < len) || ext)).ptr := rfl
    have hptr2 : (offsetsOf L).getD id 0 + cur.getD id 0
        = (L.take (id + 1)).sum := by
      rw [offsetsOf_getD L id hid, hagree (id, len) (List.mem_cons_self _ _),
        sum_take_succ L id hid]
    have hagree2 : ∀ p ∈ rest,
        (if decide (cur.getD id 0 < len) then cur.set id len else cur).getD p.1 0
          = L.getD p.1 0 := by
      intro p hp
      have hne : id ≠ p.1 := by
        have := hsort.1 p.1 (List.mem_map_of_mem Prod.fst hp)
        omega
      by_cases hg : cur.getD id 0 < len
      · rw [ite_decide_pos hg]
        rw [getD_set_ne_g cur id p.1 len 0 hne]
        exact hagree p (List.mem_cons_of_mem _ hp)
      · rw [ite_decide_neg hg]
        exact hagree p (List.mem_cons_of_mem _ hp)
    have hptrrest : ∀ p ∈ rest, (offsetsOf L).getD id 0 + cur.getD id 0
        ≤ (L.take p.1).sum := by
      intro p hp
      rw [hptr2]
      have hlt := hsort.1 p.1 (List.mem_map_of_mem Prod.fst hp)
      exact sum_take_mono L hpos (by omega)
    have ihr := ih ((offsetsOf L).getD id 0 + cur.getD id 0)
      (if decide (cur.getD id 0 < len) then cur.set id len else cur)
      (used.set id (len % 2 ^ 32)) (decide (cur.getD id 0 < len) || ext)
      hsort.2 (fun p hp => hval p (List.mem_cons_of_mem _ hp)) hagree2 hptrrest
    have hptrle : ptr ≤ (offsetsOf L).getD id 0 + cur.getD id 0 := by
      rw [hptr2]
      calc ptr ≤ (L.take id).sum := hptr (id, len) (List.mem_cons_self _ _)
        _ ≤ (L.take (id + 1)).sum := sum_take_mono L hpos (by omega)
    constructor
    · rw [hstepP]
      exact le_trans hptrle ihr.1
    · intro p hp
      rw [hstepP]
      rcases List.mem_cons.mp hp with rfl | hp2
      · rw [← hptr2]
        exact ihr.1
      · exact ihr.2 p hp2

/-- Invariant of a keep entry produced by the loop: positive size, read
offset at or after the pointer at entry, and a touched tag block whose old
offset closes the entry, with every earlier-touched block ending at or
before the read offset. -/
def KeepP (L : List ℤ) (P : List (ℕ × ℤ)) (ptr : ℤ) (kb : ℤ × ℤ × ℤ) : Prop :=
  0 < kb.2.1 ∧ ptr ≤ kb.1 ∧
    ∃ tg ∈ P.map Prod.fst, kb.2.2 = (tg : ℤ) ∧
      kb.1 + kb.2.1 = (L.take tg).sum ∧
      ∀ p ∈ P, p.1 < tg → (L.take (p.1 + 1)).sum ≤ kb.1

theorem sbLoop_keep_facts (L : List ℤ) (hpos : ∀ x ∈ L, 0 ≤ x) :
    ∀ (P : List (ℕ × ℤ)) (ptr : ℤ) (cur used : List ℤ) (ext : Bool),
      ((P.map Prod.fst).Pairwise (· < ·)) →
      (∀ p ∈ P, p.1 < L.length) →
      (∀ p ∈ P, cur.getD p.1 0 = L.getD p.1 0) →
      (∀ p ∈ P, ptr ≤ (L.take p.1).sum) →
      ∀ kb ∈ (sbLoop (offsetsOf L) P ptr cur used ext).keep,
        KeepP L P ptr kb := by
  intro P
  induction P with
  | nil => intro ptr cur used ext _ _ _ _ kb hkb; simp [sbLoop] at hkb
  | cons q rest ih =>
    rcases q with ⟨id, len⟩
    intro ptr cur used ext hsort hval hagree hptr kb hkb
    have hid : id < L.length := hval (id, len) (List.mem_cons_self _ _)
    simp only [List.map_cons, List.pairwise_cons] at hsort
    have hoff : (offsetsOf L).getD id 0 = (L.take id).sum := offsetsOf_getD L id hid
    have hptr2 : (offsetsOf L).getD id 0 + cur.getD id 0
        = (L.take (id + 1)).sum := by
      rw [hoff, hagree (id, len) (List.mem_cons_self _ _), sum_take_succ L id hid]
    have hagree2 : ∀ p ∈ rest,
        (if decide (cur.getD id 0 < len) then cur.set id len else cur).getD p.1 0
          = L.getD p.1 0 := by
      intro p hp
      have hne : id ≠ p.1 := by
        have := hsort.1 p.1 (List.mem_map_of_mem Prod.fst hp)
        omega
      by_cases hg : cur.getD id 0 < len
      · rw [ite_decide_pos hg, getD_set_ne_g cur id p.1 len 0 hne]
        exact hagree p (List.mem_cons_of_mem _ hp)
      · rw [ite_decide_neg hg]
        exact hagree p (List.mem_cons_of_mem _ hp)
    have hptrrest : ∀ p ∈ rest, (offsetsOf L).getD id 0 + cur.getD id 0
        ≤ (L.take p.1).sum := by
      intro p hp
      rw [hptr2]
      have hlt := hsort.1 p.1 (List.mem_map_of_mem Prod.fst hp)
      exact sum_take_mono L hpos (by omega)
    have hstepK : (sbLoop (offsetsOf L) ((id, len) :: rest) ptr cur used ext).keep
        = (if 0 < (offsetsOf L).getD id 0 - ptr
            then [(ptr, (offsetsOf L).getD id 0 - ptr, ((id : ℕ) : ℤ))] else [])
          ++ (sbLoop (offsetsOf L) rest ((offsetsOf L).getD id 0 + cur.getD id 0)
              (if decide (cur.getD id 0 < len) then cur.set id len else cur)
              (used.set id (len % 2 ^ 32))
              (decide (cur.getD id 0 < len) || ext)).keep := rfl
    rw [hstepK] at hkb
    rcases List.mem_append.mp hkb with hleft | hright
    · by_cases ht : 0 < (offsetsOf L).getD id 0 - ptr
      · rw [if_pos ht] at hleft
        rcases List.mem_singleton.mp hleft with rfl
        refine ⟨ht, le_refl _, id, by simp, rfl, ?_, ?_⟩
        · show ptr + ((offsetsOf L).getD id 0 - ptr) = (L.take id).sum
          rw [hoff]
          ring
        · intro p hp hplt
          rcases List.mem_cons.mp hp with rfl | hp2
          · omega
          · have := hsort.1 p.1 (List.mem_map_of_mem Prod.fst hp2)
            omega
      · rw [if_neg ht] at hleft
        simp at hleft
    · have hkp := ih ((offsetsOf L).getD id 0 + cur.getD id 0)
        (if decide (cur.getD id 0 < len) then cur.set id len else cur)
        (used.set id (len % 2 ^ 32)) (decide (cur.getD id 0 < len) || ext)
        hsort.2 (fun p hp => hval p (List.mem_cons_of_mem _ hp)) hagree2 hptrrest
        kb hright
      rcases hkp with ⟨hs, hptrkb, tg, htg, htag, hsum, hcl⟩
      refine ⟨hs, ?_, tg, List.mem_cons_of_mem _ htg, htag, hsum, ?_⟩
      · have h1 : ptr ≤ (L.take id).sum := hptr (id, len) (List.mem_cons_self _ _)
        have h2 : (L.take id).sum ≤ (L.take (id + 1)).sum :=
          sum_take_mono L hpos (by omega)
        rw [← hptr2] at h2
        exact le_trans (le_trans h1 h2) hptrkb
      · intro p hp hplt
        rcases List.mem_cons.mp hp with rfl | hp2
        · show (L.take (id + 1)).sum ≤ kb.1
          rw [← hptr2]
          exact hptrkb
        · exact hcl p hp2 hplt

theorem sbLoop_keep_pairwise (L : List ℤ) (hpos : ∀ x ∈ L, 0 ≤ x) :
    ∀ (P : List (ℕ × ℤ)) (ptr : ℤ) (cur used : List ℤ) (ext : Bool),
      ((P.map Prod.fst).Pairwise (· < ·)) →
      (∀ p ∈ P, p.1 < L.length) →
      (∀ p ∈ P, cur.getD p.1 0 = L.getD p.1 0) →
      (∀ p ∈ P, ptr ≤ (L.take p.1).sum) →
      (sbLoop (offsetsOf L) P ptr cur used ext).keep.Pairwise
        (fun a b => a.1 + a.2.1 ≤ b.1) := by
  intro P
  induction P with
  | nil => intro ptr cur used ext _ _ _ _; simp [sbLoop]
  | cons q rest ih =>
    rcases q with ⟨id, len⟩
    intro ptr cur used ext hsort hval hagree hptr
    have hid : id < L.length := hval (id, len) (List.mem_cons_self _ _)
    simp only [List.map_cons, List.pairwise_cons] at hsort
    have hoff : (offsetsOf L).getD id 0 = (L.take id).sum := offsetsOf_getD L id hid
    have hptr2 : (offsetsOf L).getD id 0 + cur.getD id 0
        = (L.take (id + 1)).sum := by
      rw [hoff, hagree (id, len) (List.mem_cons_self _ _), sum_take_succ L id hid]
    have hagree2 : ∀ p ∈ rest,
        (if decide (cur.getD id 0 < len) then cur.set id len else cur).getD p.1 0
          = L.getD p.1 0 := by
      intro p hp
      have hne : id ≠ p.1 := by
        have := hsort.1 p.1 (List.mem_map_of_mem Prod.fst hp)
        omega
      by_cases hg : cur.getD id 0 < len
      · rw [ite_decide_pos hg, getD_set_ne_g cur id p.1 len 0 hne]
        exact hagree p (List.mem_cons_of_mem _ hp)
      · rw [ite_decide_neg hg]
        exact hagree p (List.mem_cons_of_mem _ hp)
    have hptrrest : ∀ p ∈ rest, (offsetsOf L).getD id 0 + cur.getD id 0
        ≤ (L.take p.1).sum := by
      intro p hp
      rw [hptr2]
      have hlt := hsort.1 p.1 (List.mem_map_of_mem Prod.fst hp)
      exact sum_take_mono L hpos (by omega)
    have hstepK : (sbLoop (offsetsOf L) ((id, len) :: rest) ptr cur used ext).keep
        = (if 0 < (offsetsOf L).getD id 0 - ptr
            then [(ptr, (offsetsOf L).getD id 0 - ptr, ((id : ℕ) : ℤ))] else [])
          ++ (sbLoop (offsetsOf L) rest ((offsetsOf L).getD id 0 + cur.getD id 0)
              (if decide (cur.getD id 0 < len) then cur.set id len else cur)
              (used.set id (len % 2 ^ 32))
              (decide (cur.getD id 0 < len) || ext)).keep := rfl
    rw [hstepK]
    have ihp := ih ((offsetsOf L).getD id 0 + cur.getD id 0)
      (if decide (cur.getD id 0 < len) then cur.set id len else cur)
      (used.set id (len % 2 ^ 32)) (decide (cur.getD id 0 < len) || ext)
      hsort.2 (fun p hp => hval p (List.mem_cons_of_mem _ hp)) hagree2 hptrrest
    have hfacts := sbLoop_keep_facts L hpos rest
      ((offsetsOf L).getD id 0 + cur.getD id 0)
      (if decide (cur.getD id 0 < len) then cur.set id len else cur)
      (used.set id (len % 2 ^ 32)) (decide (cur.getD id 0 < len) || ext)
      hsort.2 (fun p hp => hval p (List.mem_cons_of_mem _ hp)) hagree2 hptrrest
    rw [List.pairwise_append]
    refine ⟨?_, ihp, ?_⟩
    · by_cases ht : 0 < (offsetsOf L).getD id 0 - ptr
      · rw [if_pos ht]
        simp
      · rw [if_neg ht]
        simp
    · intro a ha b hb
      by_cases ht : 0 < (offsetsOf L).getD id 0 - ptr
      · rw [if_pos ht] at ha
        rcases List.mem_singleton.mp ha with rfl
        show ptr + ((offsetsOf L).getD id 0 - ptr) ≤ b.1
        have hb2 := (hfacts b hb).2.1
        have : (offsetsOf L).getD id 0 ≤ (offsetsOf L).getD id 0 + cur.getD id 0 := by
          have : 0 ≤ cur.getD id 0 := by
            rw [hagree (id, len) (List.mem_cons_self _ _)]
            exact hpos _ (getD_mem L id hid)
          omega
        omega
      · rw [if_neg ht] at ha
        simp at ha

theorem sbLoop_cover (L : List ℤ) (hpos : ∀ x ∈ L, 0 ≤ x) :
    ∀ (P : List (ℕ × ℤ)) (ptr : ℤ) (cur used : List ℤ) (ext : Bool),
      ((P.map Prod.fst).Pairwise (· < ·)) →
      (∀ p ∈ P, p.1 < L.length) →
      (∀ p ∈ P, cur.getD p.1 0 = L.getD p.1 0) →
      (∀ p ∈ P, ptr ≤ (L.take p.1).sum) →
      ∀ j, j < L.length → j ∉ P.map Prod.fst → ptr ≤ (L.take j).sum →
        0 < L.getD j 0 →
        (∃ kb ∈ (sbLoop (offsetsOf L) P ptr cur used ext).keep,
          kb.1 ≤ (L.take j).sum ∧
          (L.take j).sum + L.getD j 0 ≤ kb.1 + kb.2.1) ∨
        (sbLoop (offsetsOf L) P ptr cur used ext).ptr ≤ (L.take j).sum := by
  intro P
  induction P with
  | nil =>
    intro ptr cur used ext _ _ _ _ j _ _ hj _
    exact Or.inr hj
  | cons q rest ih =>
    rcases q with ⟨id, len⟩
    intro ptr cur used ext hsort hval hagree hptr j hjlen hjnot hjptr hjpos
    have hid : id < L.length := hval (id, len) (List.mem_cons_self _ _)
    simp only [List.map_cons, List.pairwise_cons] at hsort
    have hoff : (offsetsOf L).getD id 0 = (L.take id).sum := offsetsOf_getD L id hid
    have hptr2 : (offsetsOf L).getD id 0 + cur.getD id 0
        = (L.take (id + 1)).sum := by
      rw [hoff, hagree (id, len) (List.mem_cons_self _ _), sum_take_succ L id hid]
    have hagree2 : ∀ p ∈ rest,
        (if decide (cur.getD id 0 < len) then cur.set id len else cur).getD p.1 0
          = L.getD p.1 0 := by
      intro p hp
      have hne : id ≠ p.1 := by
        have := hsort.1 p.1 (List.mem_map_of_mem Prod.fst hp)
        omega
      by_cases hg : cur.getD id 0 < len
      · rw [ite_decide_pos hg, getD_set_ne_g cur id p.1 len 0 hne]
        exact hagree p (List.mem_cons_of_mem _ hp)
      · rw [ite_decide_neg hg]
        exact hagree p (List.mem_cons_of_mem _ hp)
    have hptrrest : ∀ p ∈ rest, (offsetsOf L).getD id 0 + cur.getD id 0
        ≤ (L.take p.1).sum := by
      intro p hp
      rw [hptr2]
      have hlt := hsort.1 p.1 (List.mem_map_of_mem Prod.fst hp)
      exact sum_take_mono L hpos (by omega)
    have hstepK : (sbLoop (offsetsOf L) ((id, len) :: rest) ptr cur used ext).keep
        = (if 0 < (offsetsOf L).getD id 0 - ptr
            then [(ptr, (offsetsOf L).getD id 0 - ptr, ((id : ℕ) : ℤ))] else [])
          ++ (sbLoop (offsetsOf L) rest ((offsetsOf L).getD id 0 + cur.getD id 0)
              (if decide (cur.getD id 0 < len) then cur.set id len else cur)
              (used.set id (len % 2 ^ 32))
              (decide (cur.getD id 0 < len) || ext)).keep := rfl
    have hstepP : (sbLoop (offsetsOf L) ((id, len) :: rest) ptr cur used ext).ptr
        = (sbLoop (offsetsOf L) rest ((offsetsOf L).getD id 0 + cur.getD id 0)
            (if decide (cur.getD id 0 < len) then cur.set id len else cur)
            (used.set id (len % 2 ^ 32))
            (decide (cur.getD id 0 < len) || ext)).ptr := rfl
    have hjne : j ≠ id := by
      intro hh
      exact hjnot (by simp [hh])
    by_cases hcase : (L.take (id + 1)).sum ≤ (L.take j).sum
    · have ihr := ih ((offsetsOf L).getD id 0 + cur.getD id 0)
        (if decide (cur.getD id 0 < len) then cur.set id len else cur)
        (used.set id (len % 2 ^ 32)) (decide (cur.getD id 0 < len) || ext)
        hsort.2 (fun p hp => hval p (List.mem_cons_of_mem _ hp)) hagree2 hptrrest
        j hjlen (fun hh => hjnot (List.mem_cons_of_mem _ hh))
        (by rw [hptr2]; exact hcase) hjpos
      rcases ihr with ⟨kb, hkb, hb1, hb2⟩ | hr
      · refine Or.inl ⟨kb, ?_, hb1, hb2⟩
        rw [hstepK]
        exact List.mem_append.mpr (Or.inr hkb)
      · rw [hstepP]
        exact Or.inr hr
    · have hjid : j < id := by
        rcases Nat.lt_or_ge j id with h | h
        · exact h
        · have : id < j := by omega
          have : (L.take (id + 1)).sum ≤ (L.take j).sum :=
            sum_take_mono L hpos (by omega)
          omega
    -- j strictly before id: the gap keep entry emitted at id covers block j
      have hjend : (L.take j).sum + L.getD j 0 ≤ (L.take id).sum := by
        rw [← sum_take_succ L j hjlen]
        exact sum_take_mono L hpos (by omega)
      have ht : 0 < (offsetsOf L).getD id 0 - ptr := by
        rw [hoff]
        have : (L.take j).sum < (L.take j).sum + L.getD j 0 := by omega
        omega
      refine Or.inl ⟨(ptr, (offsetsOf L).getD id 0 - ptr, ((id : ℕ) : ℤ)), ?_, hjptr, ?_⟩
      · rw [hstepK, if_pos ht]
        exact List.mem_append.mpr (Or.inl (List.mem_singleton.mpr rfl))
      · show (L.take j).sum + L.getD j 0 ≤ ptr + ((offsetsOf L).getD id 0 - ptr)
        rw [hoff]
        omega

/-! ### Evaluation of the keep-copy loop -/

theorem applyKeeps_frame (src : ℤ → ℤ) :
    ∀ (keeps : List (ℤ × ℤ × ℤ)) (dst : ℤ → ℤ) (x : ℤ),
      (∀ kb ∈ keeps, ¬(kb.2.2 ≤ x ∧ x < kb.2.2 + kb.2.1)) →
      applyKeeps src keeps dst x = dst x := by
  intro keeps
  induction keeps with
  | nil => intro dst x _; rfl
  | cons kb0 rest ih =>
    intro dst x h
    show applyKeeps src rest (copyRange src dst kb0.1 kb0.2.1 kb0.2.2) x = dst x
    rw [ih _ x (fun kb hkb => h kb (List.mem_cons_of_mem _ hkb))]
    unfold copyRange
    rw [if_neg (h kb0 (List.mem_cons_self _ _))]

theorem applyKeeps_eq (src : ℤ → ℤ) :
    ∀ (keeps : List (ℤ × ℤ × ℤ)) (dst : ℤ → ℤ) (x v : ℤ),
      (∃ kb ∈ keeps, kb.2.2 ≤ x ∧ x < kb.2.2 + kb.2.1) →
      (∀ kb ∈ keeps, kb.2.2 ≤ x ∧ x < kb.2.2 + kb.2.1 →
        src (kb.1 + (x - kb.2.2)) = v) →
      applyKeeps src keeps dst x = v := by
  intro keeps
  induction keeps with
  | nil => intro dst x v hex _; simp at hex
  | cons kb0 rest ih =>
    intro dst x v hex hall
    show applyKeeps src rest (copyRange src dst kb0.1 kb0.2.1 kb0.2.2) x = v
    by_cases hr : ∃ kb ∈ rest, kb.2.2 ≤ x ∧ x < kb.2.2 + kb.2.1
    · exact ih _ x v hr (fun kb hkb hin => hall kb (List.mem_cons_of_mem _ hkb) hin)
    · have hframe : ∀ kb ∈ rest, ¬(kb.2.2 ≤ x ∧ x < kb.2.2 + kb.2.1) :=
        fun kb hkb hin => hr ⟨kb, hkb, hin⟩
      rw [applyKeeps_frame src rest _ x hframe]
      rcases hex with ⟨kb, hkb, hin⟩
      rcases List.mem_cons.mp hkb with rfl | hkb2
      · unfold copyRange
        rw [if_pos hin]
        exact hall kb (List.mem_cons_self _ _) hin
      · exact ((hframe kb hkb2) hin).elim

/-! ### Facts about the full keep list (loop entries plus the trailing one) -/

theorem keepFull_facts (lens : List ℤ) (ids : List ℕ) (lengths : List ℤ)
    (rOut : LoopOut)
    (hval : ∀ id ∈ ids, id < lens.length)
    (hmap : (ids.zip lengths).map Prod.fst = ids)
    (hkf : ∀ kb ∈ rOut.keep, KeepP lens (ids.zip lengths) 0 kb)
    (hends : ∀ p ∈ ids.zip lengths, (lens.take (p.1 + 1)).sum ≤ rOut.ptr)
    (hptr0 : 0 ≤ rOut.ptr)
    (hlenF : rOut.lens.length = lens.length) :
    ∀ kb ∈ (if rOut.ptr < lens.sum
        then rOut.keep ++ [(rOut.ptr, lens.sum - rOut.ptr, (-1 : ℤ))]
        else rOut.keep),
      ∃ T : ℕ, T ≤ lens.length ∧ 0 < kb.2.1 ∧ 0 ≤ kb.1 ∧
        kb.1 + kb.2.1 = (lens.take T).sum ∧
        (∀ t ∈ ids, t < T → (lens.take (t + 1)).sum ≤ kb.1) ∧
        (if kb.2.2 = -1 then rOut.lens.sum
         else (offsetsOf rOut.lens).getD kb.2.2.toNat 0)
          = (rOut.lens.take T).sum := by
  intro kb hkb
  have hfromLoop : ∀ kb2 ∈ rOut.keep, ∃ T : ℕ, T ≤ lens.length ∧ 0 < kb2.2.1 ∧
      0 ≤ kb2.1 ∧ kb2.1 + kb2.2.1 = (lens.take T).sum ∧
      (∀ t ∈ ids, t < T → (lens.take (t + 1)).sum ≤ kb2.1) ∧
      (if kb2.2.2 = -1 then rOut.lens.sum
       else (offsetsOf rOut.lens).getD kb2.2.2.toNat 0)
        = (rOut.lens.take T).sum := by
    intro kb2 hkb2
    rcases hkf kb2 hkb2 with ⟨hs, hp0, tg, htg, htag, hsum, hcl⟩
    rw [hmap] at htg
    have htgl : tg < lens.length := hval tg htg
    refine ⟨tg, le_of_lt htgl, hs, hp0, hsum, ?_, ?_⟩
    · intro t ht htlt
      have : t ∈ (ids.zip lengths).map Prod.fst := by rw [hmap]; exact ht
      rcases List.mem_map.mp this with ⟨p, hp, hpt⟩
      have := hcl p hp (by rw [hpt]; exact htlt)
      rw [hpt] at this
      exact this
    · rw [htag]
      have hne : ¬((tg : ℤ) = -1) := by
        have : (0 : ℤ) ≤ (tg : ℤ) := Int.natCast_nonneg tg
        omega
      rw [if_neg hne]
      have htoNat : ((tg : ℤ)).toNat = tg := Int.toNat_natCast tg
      rw [htoNat]
      exact offsetsOf_getD rOut.lens tg (by rw [hlenF]; exact htgl)
  by_cases htr : rOut.ptr < lens.sum
  · rw [if_pos htr] at hkb
    rcases List.mem_append.mp hkb with hin | hin
    · exact hfromLoop kb hin
    · rcases List.mem_singleton.mp hin with rfl
      refine ⟨lens.length, le_refl _, by simp; omega, hptr0, ?_, ?_, ?_⟩
      · show rOut.ptr + (lens.sum - rOut.ptr) = (lens.take lens.length).sum
        rw [List.take_length]
        ring
      · intro t ht htlt
        have : t ∈ (ids.zip lengths).map Prod.fst := by rw [hmap]; exact ht
        rcases List.mem_map.mp this with ⟨p, hp, hpt⟩
        have := hends p hp
        rw [hpt] at this
        exact this
      · show (if (-1 : ℤ) = -1 then rOut.lens.sum
            else (offsetsOf rOut.lens).getD ((-1 : ℤ)).toNat 0)
          = (rOut.lens.take lens.length).sum
        rw [if_pos rfl, ← hlenF, List.take_length]
  · rw [if_neg htr] at hkb
    exact hfromLoop kb hkb

theorem keepFull_pairwise (lens : List ℤ) (ids : List ℕ) (lengths : List ℤ)
    (rOut : LoopOut)
    (hpos : ∀ x ∈ lens, 0 ≤ x)
    (hval : ∀ id ∈ ids, id < lens.length)
    (hmap : (ids.zip lengths).map Prod.fst = ids)
    (hkf : ∀ kb ∈ rOut.keep, KeepP lens (ids.zip lengths) 0 kb)
    (hends : ∀ p ∈ ids.zip lengths, (lens.take (p.1 + 1)).sum ≤ rOut.ptr)
    (hpw : rOut.keep.Pairwise (fun a b => a.1 + a.2.1 ≤ b.1)) :
    (if rOut.ptr < lens.sum
        then rOut.keep ++ [(rOut.ptr, lens.sum - rOut.ptr, (-1 : ℤ))]
        else rOut.keep).Pairwise (fun a b => a.1 + a.2.1 ≤ b.1) := by
  by_cases htr : rOut.ptr < lens.sum
  · rw [if_pos htr, List.pairwise_append]
    refine ⟨hpw, by simp, ?_⟩
    intro a ha b hb
    rcases List.mem_singleton.mp hb with rfl
    rcases hkf a ha with ⟨hs, hp0, tg, htg, htag, hsum, hcl⟩
    rw [hmap] at htg
    have htgl : tg < lens.length := hval tg htg
    show a.1 + a.2.1 ≤ rOut.ptr
    rw [hsum]
    have : tg ∈ (ids.zip lengths).map Prod.fst := by rw [hmap]; exact htg
    rcases List.mem_map.mp this with ⟨p, hp, hpt⟩
    have hend := hends p hp
    rw [hpt] at hend
    calc (lens.take tg).sum ≤ (lens.take (tg + 1)).sum :=
        sum_take_mono lens hpos (by omega)
      _ ≤ rOut.ptr := hend
  · rw [if_neg htr]
    exact hpw

/-- The loop output of a setBlock call on a well-formed MemoryBlock. -/
def sbRun (lens used : List ℤ) (ids : List ℕ) (lengths : List ℤ) : LoopOut :=
  sbLoop (offsetsOf lens) (ids.zip lengths) 0 lens used false

/-- C1: a setBlock call in which some requested length exceeds the
allocated length reports extend = true, and the returned keep entries
(read offset, size, write offset) cover every byte of every untouched
block and map it to the new offset of its block: after the caller copies
every keep range from the old buffer into the new one, the byte at
new-offset + i of every untouched block equals the old byte at
old-offset + i. -/
theorem setBlock_realloc_preserves_untouched
    (lens used : List ℤ) (ids : List ℕ) (lengths : List ℤ)
    (src dst : ℤ → ℤ)
    (hpos : ∀ x ∈ lens, 0 ≤ x)
    (hchain : ids.Chain' (· < ·))
    (hval : ∀ id ∈ ids, id < lens.length)
    (hlen : ids.length = lengths.length)
    (hex : ∃ p ∈ ids.zip lengths, lens.getD p.1 0 < p.2) :
    ((mkMB lens used).setBlock ids lengths).ext = true ∧
    (∀ j, j < lens.length → j ∉ ids → ∀ i : ℤ, 0 ≤ i → i < lens.getD j 0 →
      (∃ kb ∈ ((mkMB lens used).setBlock ids lengths).keep_blocks,
        kb.1 ≤ (mkMB lens used).block_offsets.getD j 0 + i ∧
        (mkMB lens used).block_offsets.getD j 0 + i < kb.1 + kb.2.1 ∧
        kb.2.2 + ((mkMB lens used).block_offsets.getD j 0 + i - kb.1)
          = ((mkMB lens used).setBlock ids lengths).mb.block_offsets.getD j 0 + i) ∧
      applyKeeps src ((mkMB lens used).setBlock ids lengths).keep_blocks dst
          (((mkMB lens used).setBlock ids lengths).mb.block_offsets.getD j 0 + i)
        = src ((mkMB lens used).block_offsets.getD j 0 + i)) := by
  have hmap : (ids.zip lengths).map Prod.fst = ids :=
    List.map_fst_zip ids lengths (le_of_eq hlen)
  have hpw : ((ids.zip lengths).map Prod.fst).Pairwise (· < ·) := by
    rw [hmap]
    exact List.chain'_iff_pairwise.mp hchain
  have hvalP : ∀ p ∈ ids.zip lengths, p.1 < lens.length :=
    fun p hp => hval p.1 (List.of_mem_zip hp).1
  have hagreeP : ∀ p ∈ ids.zip lengths, lens.getD p.1 0 = lens.getD p.1 0 :=
    fun _ _ => rfl
  have hptrP : ∀ p ∈ ids.zip lengths, (0 : ℤ) ≤ (lens.take p.1).sum :=
    fun p _ => sum_take_nonneg lens hpos p.1
  -- loop facts, phrased via sbRun
  have hEF : (sbRun lens used ids lengths).ext = true :=
    (sbLoop_ext_facts (offsetsOf lens) lens (ids.zip lengths) 0 lens used false
      hagreeP hpw hvalP).2 hex
  have hlenF : (sbRun lens used ids lengths).lens.length = lens.length :=
    (sbLoop_lens_facts (offsetsOf lens) (ids.zip lengths) 0 lens used false hvalP).1
  have hgrowF : ∀ k, lens.getD k 0 ≤ (sbRun lens used ids lengths).lens.getD k 0 :=
    (sbLoop_lens_facts (offsetsOf lens) (ids.zip lengths) 0 lens used false
      hvalP).2.1
  have huntF : ∀ m, m ∉ ids →
      (sbRun lens used ids lengths).lens.getD m 0 = lens.getD m 0 := by
    intro m hm
    refine (sbLoop_lens_facts (offsetsOf lens) (ids.zip lengths) 0 lens used false
      hvalP).2.2 m ?_
    rw [hmap]
    exact hm
  have hptr0F : (0 : ℤ) ≤ (sbRun lens used ids lengths).ptr :=
    (sbLoop_ptr_facts lens hpos (ids.zip lengths) 0 lens used false hpw hvalP
      hagreeP hptrP).1
  have hendsF : ∀ p ∈ ids.zip lengths,
      (lens.take (p.1 + 1)).sum ≤ (sbRun lens used ids lengths).ptr :=
    (sbLoop_ptr_facts lens hpos (ids.zip lengths) 0 lens used false hpw hvalP
      hagreeP hptrP).2
  have hKFF : ∀ kb ∈ (sbRun lens used ids lengths).keep,
      KeepP lens (ids.zip lengths) 0 kb :=
    sbLoop_keep_facts lens hpos (ids.zip lengths) 0 lens used false hpw hvalP
      hagreeP hptrP
  have hPWF : (sbRun lens used ids lengths).keep.Pairwise
      (fun a b => a.1 + a.2.1 ≤ b.1) :=
    sbLoop_keep_pairwise lens hpos (ids.zip lengths) 0 lens used false hpw hvalP
      hagreeP hptrP
  have hKB1 := keepFull_facts lens ids lengths (sbRun lens used ids lengths)
    hval hmap hKFF hendsF hptr0F hlenF
  have hKBpw := keepFull_pairwise lens ids lengths (sbRun lens used ids lengths)
    hpos hval hmap hKFF hendsF hPWF
  have hcovF : ∀ j, j < lens.length → j ∉ (ids.zip lengths).map Prod.fst →
      (0 : ℤ) ≤ (lens.take j).sum → 0 < lens.getD j 0 →
      (∃ kb ∈ (sbRun lens used ids lengths).keep,
        kb.1 ≤ (lens.take j).sum ∧
        (lens.take j).sum + lens.getD j 0 ≤ kb.1 + kb.2.1) ∨
      (sbRun lens used ids lengths).ptr ≤ (lens.take j).sum :=
    sbLoop_cover lens hpos (ids.zip lengths) 0 lens used false hpw hvalP
      hagreeP hptrP
  -- output projections
  have hKBeq : ((mkMB lens used).setBlock ids lengths).keep_blocks
      = (if (sbRun lens used ids lengths).ptr < lens.sum
          then (sbRun lens used ids lengths).keep
            ++ [((sbRun lens used ids lengths).ptr,
                lens.sum - (sbRun lens used ids lengths).ptr, (-1 : ℤ))]
          else (sbRun lens used ids lengths).keep).map
        (fun kb => (kb.1, kb.2.1,
          (if kb.2.2 = -1 then (sbRun lens used ids lengths).lens.sum
           else (offsetsOf (sbRun lens used ids lengths).lens).getD
             kb.2.2.toNat 0) - kb.2.1)) := by
    have e : ((mkMB lens used).setBlock ids lengths).keep_blocks
        = if (sbRun lens used ids lengths).ext
          then (if (sbRun lens used ids lengths).ptr < lens.sum
              then (sbRun lens used ids lengths).keep
                ++ [((sbRun lens used ids lengths).ptr,
                    lens.sum - (sbRun lens used ids lengths).ptr, (-1 : ℤ))]
              else (sbRun lens used ids lengths).keep).map
            (fun kb => (kb.1, kb.2.1,
              (if kb.2.2 = -1
               then (if (sbRun lens used ids lengths).ext
                 then (sbRun lens used ids lengths).lens.sum else lens.sum)
               else (if (sbRun lens used ids lengths).ext
                 then offsetsOf (sbRun lens used ids lengths).lens
                 else offsetsOf lens).getD kb.2.2.toNat 0) - kb.2.1))
          else (if (sbRun lens used ids lengths).ptr < lens.sum
              then (sbRun lens used ids lengths).keep
                ++ [((sbRun lens used ids lengths).ptr,
                    lens.sum - (sbRun lens used ids lengths).ptr, (-1 : ℤ))]
              else (sbRun lens used ids lengths).keep) := rfl
    rw [e]
    simp [hEF]
  have hNewOffsets : ((mkMB lens used).setBlock ids lengths).mb.block_offsets
      = offsetsOf (sbRun lens used ids lengths).lens := by
    have e : ((mkMB lens used).setBlock ids lengths).mb.block_offsets
        = if (sbRun lens used ids lengths).ext
          then offsetsOf (sbRun lens used ids lengths).lens
          else offsetsOf lens := rfl
    rw [e]
    simp [hEF]
  refine ⟨hEF, ?_⟩
  intro j hj hjn i hi0 hilt
  have hjpos : 0 < lens.getD j 0 := by linarith
  have hOld : (mkMB lens used).block_offsets.getD j 0 = (lens.take j).sum :=
    offsetsOf_getD lens j hj
  have hNew : ((mkMB lens used).setBlock ids lengths).mb.block_offsets.getD j 0
      = ((sbRun lens used ids lengths).lens.take j).sum := by
    rw [hNewOffsets]
    exact offsetsOf_getD _ j (by rw [hlenF]; exact hj)
  rw [hOld, hNew, hKBeq]
  have hcov := hcovF j hj (by rw [hmap]; exact hjn)
    (sum_take_nonneg lens hpos j) hjpos
  -- abbreviate the loop output
  set RB := sbRun lens used ids lengths with hRB
  -- shift arithmetic
  have hshift_mono : ∀ a b : ℕ, a ≤ b →
      (RB.lens.take a).sum - (lens.take a).sum
        ≤ (RB.lens.take b).sum - (lens.take b).sum := by
    intro a b hab
    have := sum_take_sub_mono lens RB.lens hlenF.symm (fun m _ => hgrowF m) hab
    linarith
  have hshift_seg : ∀ a b : ℕ, a ≤ b → (∀ m, a ≤ m → m < b → m ∉ ids) →
      (RB.lens.take b).sum - (lens.take b).sum
        = (RB.lens.take a).sum - (lens.take a).sum := by
    intro a b hab hseg
    have := sum_take_sub_eq lens RB.lens hlenF.symm
      (fun m _ hma hmb => (huntF m (hseg m hma hmb)).symm) hab
    linarith
  have hsuccj : (lens.take (j + 1)).sum = (lens.take j).sum + lens.getD j 0 :=
    sum_take_succ lens j hj
  -- the covering keep entry of the full list
  obtain ⟨kb, hkbK1, hcr, hce⟩ : ∃ kb ∈ (if RB.ptr < lens.sum
      then RB.keep ++ [(RB.ptr, lens.sum - RB.ptr, (-1 : ℤ))] else RB.keep),
      kb.1 ≤ (lens.take j).sum ∧
      (lens.take j).sum + lens.getD j 0 ≤ kb.1 + kb.2.1 := by
    rcases hcov with ⟨kb, hkb, h1, h2⟩ | hptr
    · refine ⟨kb, ?_, h1, h2⟩
      by_cases htr : RB.ptr < lens.sum
      · rw [if_pos htr]
        exact List.mem_append.mpr (Or.inl hkb)
      · rw [if_neg htr]
        exact hkb
    · have hjsum : (lens.take j).sum + lens.getD j 0 ≤ lens.sum := by
        rw [← hsuccj]
        exact sum_take_le_sum lens hpos (j + 1)
      have htr : RB.ptr < lens.sum := by linarith
      refine ⟨(RB.ptr, lens.sum - RB.ptr, (-1 : ℤ)), ?_, hptr, ?_⟩
      · rw [if_pos htr]
        exact List.mem_append.mpr (Or.inr (List.mem_singleton.mpr rfl))
      · show (lens.take j).sum + lens.getD j 0 ≤ RB.ptr + (lens.sum - RB.ptr)
        linarith
  obtain ⟨T, hTn, hks, hk0, hksum, hkcl, hkE⟩ := hKB1 kb hkbK1
  have hjT : j < T := by
    by_contra hc
    push_neg at hc
    have h1 : (lens.take T).sum ≤ (lens.take j).sum := sum_take_mono lens hpos hc
    linarith
  have hseg : ∀ m, j ≤ m → m < T → m ∉ ids := by
    intro m hjm hmT hmem
    have h1 := hkcl m hmem hmT
    have h2 : (lens.take (j + 1)).sum ≤ (lens.take (m + 1)).sum :=
      sum_take_mono lens hpos (by omega)
    linarith
  have hshift : (RB.lens.take T).sum - (lens.take T).sum
      = (RB.lens.take j).sum - (lens.take j).sum :=
    hshift_seg j T (le_of_lt hjT) hseg
  -- the covering bound computations, valid for any covering entry
  have hmain : ∀ kb2 ∈ (if RB.ptr < lens.sum
      then RB.keep ++ [(RB.ptr, lens.sum - RB.ptr, (-1 : ℤ))] else RB.keep),
      kb2.1 ≤ (lens.take j).sum →
      (lens.take j).sum + lens.getD j 0 ≤ kb2.1 + kb2.2.1 →
      ((if kb2.2.2 = -1 then RB.lens.sum
        else (offsetsOf RB.lens).getD kb2.2.2.toNat 0) - kb2.2.1
          ≤ (RB.lens.take j).sum + i) ∧
      ((RB.lens.take j).sum + i
        < (if kb2.2.2 = -1 then RB.lens.sum
           else (offsetsOf RB.lens).getD kb2.2.2.toNat 0)) ∧
      (kb2.1 + ((RB.lens.take j).sum + i
          - ((if kb2.2.2 = -1 then RB.lens.sum
              else (offsetsOf RB.lens).getD kb2.2.2.toNat 0) - kb2.2.1))
        = (lens.take j).sum + i) := by
    intro kb2 hkb2 hcr2 hce2
    obtain ⟨T2, hTn2, hks2, hk02, hksum2, hkcl2, hkE2⟩ := hKB1 kb2 hkb2
    have hjT2 : j < T2 := by
      by_contra hc
      push_neg at hc
      have h1 : (lens.take T2).sum ≤ (lens.take j).sum :=
        sum_take_mono lens hpos hc
      linarith
    have hseg2 : ∀ m, j ≤ m → m < T2 → m ∉ ids := by
      intro m hjm hmT hmem
      have h1 := hkcl2 m hmem hmT
      have h2 : (lens.take (j + 1)).sum ≤ (lens.take (m + 1)).sum :=
        sum_take_mono lens hpos (by omega)
      linarith
    have hshift2 : (RB.lens.take T2).sum - (lens.take T2).sum
        = (RB.lens.take j).sum - (lens.take j).sum :=
      hshift_seg j T2 (le_of_lt hjT2) hseg2
    rw [hkE2]
    refine ⟨by linarith, by linarith, by linarith⟩
  have hmaincov := hmain kb hkbK1 hcr hce
  rw [hkE] at hmaincov
  constructor
  · -- explicit coverage triple
    refine ⟨(kb.1, kb.2.1,
      (if kb.2.2 = -1 then RB.lens.sum
       else (offsetsOf RB.lens).getD kb.2.2.toNat 0) - kb.2.1),
      List.mem_map_of_mem _ hkbK1, by linarith, by linarith, ?_⟩
    show (if kb.2.2 = -1 then RB.lens.sum
        else (offsetsOf RB.lens).getD kb.2.2.toNat 0) - kb.2.1
        + ((lens.take j).sum + i - kb.1) = (RB.lens.take j).sum + i
    rw [hkE]
    linarith
  · -- buffer round trip
    refine applyKeeps_eq src _ dst _ _ ⟨(kb.1, kb.2.1,
      (if kb.2.2 = -1 then RB.lens.sum
       else (offsetsOf RB.lens).getD kb.2.2.toNat 0) - kb.2.1),
      List.mem_map_of_mem _ hkbK1, ?_, ?_⟩ ?_
    · show (if kb.2.2 = -1 then RB.lens.sum
          else (offsetsOf RB.lens).getD kb.2.2.toNat 0) - kb.2.1
          ≤ (RB.lens.take j).sum + i
      rw [hkE]
      linarith
    · show (RB.lens.take j).sum + i
        < (if kb.2.2 = -1 then RB.lens.sum
           else (offsetsOf RB.lens).getD kb.2.2.toNat 0) - kb.2.1 + kb.2.1
      rw [hkE]
      linarith
    · intro kbm hkbm hin
      rcases List.mem_map.mp hkbm with ⟨kb2, hkb2, rfl⟩
      obtain ⟨T2, hTn2, hks2, hk02, hksum2, hkcl2, hkE2⟩ := hKB1 kb2 hkb2
      rcases pairwise_mem_or hKBpw hkbK1 hkb2 with heq | hlt | hgt
      · -- same entry: direct computation
        subst heq
        show src (kb.1 + ((RB.lens.take j).sum + i
            - ((if kb.2.2 = -1 then RB.lens.sum
                else (offsetsOf RB.lens).getD kb.2.2.toNat 0) - kb.2.1)))
          = src ((lens.take j).sum + i)
        have h4 : kb.1 + ((RB.lens.take j).sum + i
            - ((if kb.2.2 = -1 then RB.lens.sum
                else (offsetsOf RB.lens).getD kb.2.2.toNat 0) - kb.2.1))
            = (lens.take j).sum + i := by
          rw [hkE2]
          linarith
        rw [h4]
      · -- kb before kb2: kb2 starts after the end of the block of j
        exfalso
        have hin1 : (if kb2.2.2 = -1 then RB.lens.sum
            else (offsetsOf RB.lens).getD kb2.2.2.toNat 0) - kb2.2.1
            ≤ (RB.lens.take j).sum + i := hin.1
        rw [hkE2] at hin1
        -- j < T2 since the old offset of T2 exceeds the end of block j
        have hjT2 : j < T2 := by
          by_contra hc
          push_neg at hc
          have h1 : (lens.take T2).sum ≤ (lens.take j).sum :=
            sum_take_mono lens hpos hc
          linarith
        have hs2 : (RB.lens.take j).sum - (lens.take j).sum
            ≤ (RB.lens.take T2).sum - (lens.take T2).sum :=
          hshift_mono j T2 (le_of_lt hjT2)
        linarith
      · -- kb2 before kb: kb2 ends at or before the start of the block of j
        exfalso
        have hin2 : (RB.lens.take j).sum + i
            < (if kb2.2.2 = -1 then RB.lens.sum
               else (offsetsOf RB.lens).getD kb2.2.2.toNat 0) - kb2.2.1
              + kb2.2.1 := hin.2
        rw [hkE2] at hin2
        have hjT2 : T2 ≤ j := by
          by_contra hc
          push_neg at hc
          have h1 : (lens.take (j + 1)).sum ≤ (lens.take T2).sum :=
            sum_take_mono lens hpos hc
          linarith
        have hs2 : (RB.lens.take T2).sum - (lens.take T2).sum
            ≤ (RB.lens.take j).sum - (lens.take j).sum :=
          hshift_mono T2 j hjT2
        linarith

/-- Witness for setBlock_realloc_preserves_untouched: three blocks of 4
bytes, block 1 grown to 8 bytes; byte 3 of untouched block 2 survives the
keep copies at its recomputed offset. -/
theorem setBlock_realloc_preserves_untouched_witness :
    ((mkMB [4, 4, 4] [4, 4, 4]).setBlock [1] [8]).ext = true ∧
    applyKeeps (fun x => x)
        ((mkMB [4, 4, 4] [4, 4, 4]).setBlock [1] [8]).keep_blocks (fun _ => 0)
        ((((mkMB [4, 4, 4] [4, 4, 4]).setBlock [1] [8]).mb.block_offsets.getD 2 0)
          + 3)
      = (mkMB [4, 4, 4] [4, 4, 4]).block_offsets.getD 2 0 + 3 :=
  ⟨(setBlock_realloc_preserves_untouched [4, 4, 4] [4, 4, 4] [1] [8]
      (fun x => x) (fun _ => 0) (by decide) (List.chain'_singleton 1) (by decide)
      (by decide) (by decide)).1,
   ((setBlock_realloc_preserves_untouched [4, 4, 4] [4, 4, 4] [1] [8]
      (fun x => x) (fun _ => 0) (by decide) (List.chain'_singleton 1) (by decide)
      (by decide) (by decide)).2 2 (by decide) (by decide) 3 (by decide)
      (by decide)).2⟩

end Painter
